import Mathlib

/-!
Verification of the deterministic intent-hashing core of chux-yanzi-core.

The definitions below are a shallow embedding of the Go source:
`model` (IntentRecord, Validate, Normalize), `hash` (CanonicalizeMeta,
HashIntent, canonicalIntentPreimage, normalizeRFC3339, decodeJSON,
writeJSONObject, writeJSONValue) and `store` (FilterIntentsByMeta,
matchesMetaFilters, ListIntents).  Go strings are modelled as Lean
`String`, byte slices (`json.RawMessage`) as `String` holding the raw
text, machine integers as `Nat`/`Int` with explicit `% 2 ^ 32` where Go
words wrap, and fallible functions as `Except String`.
-/

set_option maxRecDepth 10000

namespace Yanzi

instance {ε α : Type} [DecidableEq ε] [DecidableEq α] : DecidableEq (Except ε α) :=
  fun x y =>
    match x, y with
    | .error a, .error b =>
      if h : a = b then .isTrue (by rw [h]) else .isFalse (by simp [h])
    | .ok a, .ok b =>
      if h : a = b then .isTrue (by rw [h]) else .isFalse (by simp [h])
    | .error _, .ok _ => .isFalse (by simp)
    | .ok _, .error _ => .isFalse (by simp)

/-- The opening brace character, kept out of string literals. -/
def lbrace : Char := Char.ofNat 123

/-- The closing brace character, kept out of string literals. -/
def rbrace : Char := Char.ofNat 125

/-- `model.IntentRecord`: the v0 intent schema.  `Meta` holds the raw
JSON bytes of the optional metadata (empty string = nil slice). -/
structure IntentRecord where
  ID : String
  CreatedAt : String
  Author : String
  SourceType : String
  Title : String
  Prompt : String
  Response : String
  Meta : String
  PrevHash : String
  Hash : String
deriving Repr, DecidableEq

/-- First pass of `model.normalizeNewlines`:
`strings.ReplaceAll(value, "\r\n", "\n")` (leftmost, non-overlapping). -/
def replaceCRLF : List Char → List Char
  | '\r' :: '\n' :: rest => '\n' :: replaceCRLF rest
  | c :: rest => c :: replaceCRLF rest
  | [] => []

/-- Second pass of `model.normalizeNewlines`:
`strings.ReplaceAll(value, "\r", "\n")` (pointwise, pattern length 1). -/
def replaceCR (cs : List Char) : List Char :=
  cs.map fun c => if c = '\r' then '\n' else c

/-- `model.normalizeNewlines`: CRLF then lone CR rewritten to LF. -/
def normalizeNewlines (value : String) : String :=
  if value = "" then value
  else String.mk (replaceCR (replaceCRLF value.data))

/-- `model.IntentRecord.Normalize`: a copy with the free-text fields
newline-normalized. -/
def IntentRecord.Normalize (r : IntentRecord) : IntentRecord :=
  { r with
    Author := normalizeNewlines r.Author
    SourceType := normalizeNewlines r.SourceType
    Title := normalizeNewlines r.Title
    Prompt := normalizeNewlines r.Prompt
    Response := normalizeNewlines r.Response
    PrevHash := normalizeNewlines r.PrevHash }

mutual
/-- A decoded JSON value as produced by `decodeJSON` (which sets
`dec.UseNumber()`): numbers keep their original literal token, objects
keep their members in source order (map semantics are applied at use
sites, mirroring Go's `map[string]any`). -/
inductive Json where
  | null : Json
  | boolv (b : Bool) : Json
  | strv (s : String) : Json
  | numv (token : String) : Json
  | arr (items : JsonList) : Json
  | obj (fields : JsonFields) : Json
deriving DecidableEq

/-- Elements of a JSON array, as a nested list so that the canonical
writer is structurally recursive. -/
inductive JsonList where
  | nil : JsonList
  | cons (hd : Json) (tl : JsonList) : JsonList
deriving DecidableEq

/-- Members of a JSON object, in source order. -/
inductive JsonFields where
  | nil : JsonFields
  | cons (key : String) (val : Json) (tl : JsonFields) : JsonFields
deriving DecidableEq
end

/-- JsonFields viewed as an ordinary association list. -/
def JsonFields.toList : JsonFields → List (String × Json)
  | .nil => []
  | .cons k v fs => (k, v) :: fs.toList

/-- JsonList viewed as an ordinary list. -/
def JsonList.toList : JsonList → List Json
  | .nil => []
  | .cons x xs => x :: xs.toList

/-- Build JsonFields from an association list. -/
def JsonFields.ofList : List (String × Json) → JsonFields
  | [] => .nil
  | (k, v) :: rest => .cons k v (JsonFields.ofList rest)

/-- Build JsonList from a list. -/
def JsonList.ofList : List Json → JsonList
  | [] => .nil
  | x :: rest => .cons x (JsonList.ofList rest)

/-- Lowercase hexadecimal digit characters, as used by Go's
`encoding/hex` and by `encoding/json` \u escapes. -/
def hexDigitChar (n : Nat) : Char :=
  if n = 0 then '0' else if n = 1 then '1' else if n = 2 then '2'
  else if n = 3 then '3' else if n = 4 then '4' else if n = 5 then '5'
  else if n = 6 then '6' else if n = 7 then '7' else if n = 8 then '8'
  else if n = 9 then '9' else if n = 10 then 'a' else if n = 11 then 'b'
  else if n = 12 then 'c' else if n = 13 then 'd' else if n = 14 then 'e'
  else 'f'

/-- Go `json.Marshal` on one character of a string: the default encoder
escapes quotes, backslashes, control characters and (HTML-safely)
`<`, `>`, `&`, U+2028 and U+2029. -/
def escapeChar (c : Char) : List Char :=
  if c = '"' then ['\\', '"']
  else if c = '\\' then ['\\', '\\']
  else if c = '\n' then ['\\', 'n']
  else if c = '\r' then ['\\', 'r']
  else if c = '\t' then ['\\', 't']
  else if c.toNat < 32 then
    ['\\', 'u', '0', '0', hexDigitChar (c.toNat / 16), hexDigitChar (c.toNat % 16)]
  else if c = '<' then ['\\', 'u', '0', '0', '3', 'c']
  else if c = '>' then ['\\', 'u', '0', '0', '3', 'e']
  else if c = '&' then ['\\', 'u', '0', '0', '2', '6']
  else if c.toNat = 0x2028 then ['\\', 'u', '2', '0', '2', '8']
  else if c.toNat = 0x2029 then ['\\', 'u', '2', '0', '2', '9']
  else [c]

/-- Go `json.Marshal` applied to a string value: quoted and escaped. -/
def jsonEscape (s : String) : String :=
  "\"" ++ String.mk (s.data.foldr (fun c acc => escapeChar c ++ acc) []) ++ "\""

/-- Does the association list bind this key (Go `_, ok := m[k]`)? -/
def containsKey {α : Type} (k : String) : List (String × α) → Bool
  | [] => false
  | p :: rest => p.1 == k || containsKey k rest

/-- Replace the value bound to a key (Go map assignment on a present key). -/
def replaceKey {α : Type} (k : String) (v : α) : List (String × α) → List (String × α)
  | [] => []
  | p :: rest => if p.1 == k then (k, v) :: replaceKey k v rest else p :: replaceKey k v rest

/-- One Go map insertion `m[k] = v` on an association-list model of the
map (keys stay unique, later values win). -/
def insKey {α : Type} (acc : List (String × α)) (p : String × α) : List (String × α) :=
  if containsKey p.1 acc then replaceKey p.1 p.2 acc else acc ++ [p]

/-- The Go map built by inserting the bindings in order (duplicate keys:
last value wins), as `map[string]any` does during JSON decoding. -/
def mapOf {α : Type} (ps : List (String × α)) : List (String × α) :=
  ps.foldl insKey []

/-- First binding of a key (well-defined lookup once keys are unique). -/
def lookupFirst {α : Type} (k : String) : List (String × α) → Option α
  | [] => none
  | p :: rest => if p.1 == k then some p.2 else lookupFirst k rest

/-- Lexicographic comparison of character sequences by code point;
on UTF-8 data this coincides with Go's bytewise string order. -/
def charListLe : List Char → List Char → Bool
  | [], _ => true
  | _ :: _, [] => false
  | a :: as, b :: bs =>
    if a.toNat < b.toNat then true
    else if b.toNat < a.toNat then false
    else charListLe as bs

/-- Go's string order (`s <= t` bytewise), used by `sort.Strings`. -/
def strLe (s t : String) : Bool := charListLe s.data t.data

/-- Key order used by `writeJSONObject` (Go `sort.Strings` on the key
slice): ascending lexicographic byte order of the keys. -/
def keyLe {α : Type} (p q : String × α) : Prop := strLe p.1 q.1 = true

instance {α : Type} : DecidableRel (keyLe (α := α)) :=
  fun p q => inferInstanceAs (Decidable (strLe p.1 q.1 = true))

/-- `sort.Strings` on the collected keys, carried out on the whole
key/value pairs. -/
def sortPairs {α : Type} (ps : List (String × α)) : List (String × α) :=
  List.insertionSort keyLe ps

/-- Comma-joining of already rendered members. -/
def commaJoin : List String → String
  | [] => ""
  | [s] => s
  | s :: rest => s ++ "," ++ commaJoin rest

/-- One rendered object member: encoded key, colon, rendered value. -/
def renderPair (p : String × String) : String := jsonEscape p.1 ++ ":" ++ p.2

/-- `writeJSONObject` applied to already-rendered member values: build
the Go map from the members (later duplicates win), sort the keys
ascending, and emit the members between braces. -/
def renderObject (ps : List (String × String)) : String :=
  String.mk [lbrace] ++ commaJoin ((sortPairs (mapOf ps)).map renderPair) ++ String.mk [rbrace]

mutual
/-- `hash.writeJSONValue`: canonical text of a decoded JSON value.
Numbers are emitted as their original `json.Number` token. -/
def writeJSONValue (v : Json) : String :=
  match v with
  | .null => "null"
  | .boolv b => if b then "true" else "false"
  | .strv s => jsonEscape s
  | .numv t => t
  | .arr xs => "[" ++ commaJoin (writeJSONList xs) ++ "]"
  | .obj fs => renderObject (writeJSONFields fs)
termination_by structural v

/-- Canonical text of each array element, in original order. -/
def writeJSONList (l : JsonList) : List String :=
  match l with
  | .nil => []
  | .cons x xs => writeJSONValue x :: writeJSONList xs
termination_by structural l

/-- Members of an object with their values already rendered (rendering
a value is independent of where its member ends up after map building
and key sorting, so recursing first is faithful). -/
def writeJSONFields (l : JsonFields) : List (String × String) :=
  match l with
  | .nil => []
  | .cons k v fs => (k, writeJSONValue v) :: writeJSONFields fs
termination_by structural l
end

/-! ### JSON decoding (`encoding/json` as used by `decodeJSON` / `json.Unmarshal`) -/

/-- JSON whitespace accepted between tokens by Go's scanner. -/
def isJsonWs (c : Char) : Bool := c = ' ' || c = '\t' || c = '\n' || c = '\r'

/-- Skip insignificant whitespace. -/
def skipWs : List Char → List Char
  | [] => []
  | c :: rest => if isJsonWs c then skipWs rest else c :: rest

/-- Numeric value of a hexadecimal digit character. -/
def hexVal (c : Char) : Option Nat :=
  if '0' ≤ c ∧ c ≤ '9' then some (c.toNat - 48)
  else if 'a' ≤ c ∧ c ≤ 'f' then some (c.toNat - 87)
  else if 'A' ≤ c ∧ c ≤ 'F' then some (c.toNat - 55)
  else none

/-- Four hex digits of a \u escape. -/
def parseHex4 : List Char → Option (Nat × List Char)
  | c1 :: c2 :: c3 :: c4 :: rest =>
    match hexVal c1, hexVal c2, hexVal c3, hexVal c4 with
    | some a, some b, some c, some d => some (4096 * a + 256 * b + 16 * c + d, rest)
    | _, _, _, _ => none
  | _ => none

/-- Split off a leading run of decimal digits. -/
def takeDigits : List Char → List Char × List Char
  | [] => ([], [])
  | c :: rest =>
    if c.isDigit then
      let p := takeDigits rest
      (c :: p.1, p.2)
    else ([], c :: rest)

/-- The integer part of a JSON number: `0`, or a nonzero digit followed
by digits (Go's scanner rejects leading zeros). -/
def parseIntPart : List Char → Option (List Char × List Char)
  | [] => none
  | c :: rest =>
    if c = '0' then some ([c], rest)
    else if c.isDigit then
      let p := takeDigits rest
      some (c :: p.1, p.2)
    else none

/-- The optional fraction part: `.` followed by at least one digit. -/
def parseFracPart : List Char → Option (List Char × List Char)
  | '.' :: rest =>
    let p := takeDigits rest
    if p.1 = [] then none else some ('.' :: p.1, p.2)
  | cs => some ([], cs)

/-- The optional exponent part: `e`/`E`, optional sign, digits. -/
def parseExpPart : List Char → Option (List Char × List Char)
  | e :: rest =>
    if e = 'e' ∨ e = 'E' then
      match rest with
      | sgn :: rest' =>
        if sgn = '+' ∨ sgn = '-' then
          let p := takeDigits rest'
          if p.1 = [] then none else some (e :: sgn :: p.1, p.2)
        else
          let p := takeDigits rest
          if p.1 = [] then none else some (e :: p.1, p.2)
      | [] => none
    else some ([], e :: rest)
  | [] => some ([], [])

/-- A JSON number literal, returned as its original token (this is what
`json.Number` preserves under `dec.UseNumber()`). -/
def parseNumberToken (cs : List Char) : Option (String × List Char) :=
  let (neg, cs1) : List Char × List Char := match cs with
    | '-' :: rest => (['-'], rest)
    | _ => ([], cs)
  match parseIntPart cs1 with
  | none => none
  | some (ip, cs2) =>
    match parseFracPart cs2 with
    | none => none
    | some (fp, cs3) =>
      match parseExpPart cs3 with
      | none => none
      | some (ep, cs4) => some (String.mk (neg ++ ip ++ fp ++ ep), cs4)

/-- The body of a JSON string after the opening quote, unescaped the way
Go's decoder does it (including U+FFFD replacement for unpaired
surrogate escapes, and rejection of raw control characters). -/
def parseStringBody : Nat → List Char → List Char → Option (String × List Char)
  | 0, _, _ => none
  | n + 1, acc, cs =>
    match cs with
    | [] => none
    | c :: rest =>
      if c = '"' then some (String.mk acc.reverse, rest)
      else if c = '\\' then
        match rest with
        | 'u' :: rest' =>
          match parseHex4 rest' with
          | none => none
          | some (u, rest2) =>
            if 0xD800 ≤ u ∧ u < 0xE000 then
              match rest2 with
              | '\\' :: 'u' :: rest3 =>
                match parseHex4 rest3 with
                | some (u2, rest4) =>
                  if u < 0xDC00 ∧ 0xDC00 ≤ u2 ∧ u2 < 0xE000 then
                    parseStringBody n
                      (Char.ofNat (0x10000 + (u - 0xD800) * 0x400 + (u2 - 0xDC00)) :: acc) rest4
                  else parseStringBody n (Char.ofNat 0xFFFD :: acc) rest2
                | none => parseStringBody n (Char.ofNat 0xFFFD :: acc) rest2
              | _ => parseStringBody n (Char.ofNat 0xFFFD :: acc) rest2
            else parseStringBody n (Char.ofNat u :: acc) rest2
        | e :: rest' =>
          if e = '"' then parseStringBody n ('"' :: acc) rest'
          else if e = '\\' then parseStringBody n ('\\' :: acc) rest'
          else if e = '/' then parseStringBody n ('/' :: acc) rest'
          else if e = 'b' then parseStringBody n (Char.ofNat 8 :: acc) rest'
          else if e = 'f' then parseStringBody n (Char.ofNat 12 :: acc) rest'
          else if e = 'n' then parseStringBody n ('\n' :: acc) rest'
          else if e = 'r' then parseStringBody n ('\r' :: acc) rest'
          else if e = 't' then parseStringBody n ('\t' :: acc) rest'
          else none
        | [] => none
      else if c.toNat < 32 then none
      else parseStringBody n (c :: acc) rest

mutual
/-- One JSON value, Go-decoder style: leading whitespace skipped, then a
literal, string, number, array or object.  The fuel argument only bounds
the recursion; `decodeJSON` passes enough for its whole input. -/
def parseValue : Nat → List Char → Option (Json × List Char)
  | 0, _ => none
  | n + 1, cs =>
    match skipWs cs with
    | 'n' :: 'u' :: 'l' :: 'l' :: rest => some (.null, rest)
    | 't' :: 'r' :: 'u' :: 'e' :: rest => some (.boolv true, rest)
    | 'f' :: 'a' :: 'l' :: 's' :: 'e' :: rest => some (.boolv false, rest)
    | [] => none
    | c :: rest =>
      if c = '"' then
        match parseStringBody (rest.length + 1) [] rest with
        | some (s, rest') => some (.strv s, rest')
        | none => none
      else if c = lbrace then
        match skipWs rest with
        | d :: more =>
          if d = rbrace then some (.obj .nil, more) else parseMembers n [] rest
        | [] => none
      else if c = '[' then
        match skipWs rest with
        | ']' :: more => some (.arr .nil, more)
        | _ => parseElems n [] rest
      else if c = '-' ∨ c.isDigit then
        match parseNumberToken (c :: rest) with
        | some (t, rest') => some (.numv t, rest')
        | none => none
      else none

/-- Members of a non-empty object after its opening brace (or after a
comma): a quoted key, a colon, a value, then a comma or closing brace. -/
def parseMembers : Nat → List (String × Json) → List Char → Option (Json × List Char)
  | 0, _, _ => none
  | n + 1, acc, cs =>
    match skipWs cs with
    | k :: rest =>
      if k = '"' then
        match parseStringBody (rest.length + 1) [] rest with
        | none => none
        | some (key, afterKey) =>
          match skipWs afterKey with
          | ':' :: afterColon =>
            match parseValue n afterColon with
            | none => none
            | some (v, afterVal) =>
              match skipWs afterVal with
              | ',' :: more => parseMembers n ((key, v) :: acc) more
              | d :: _more =>
                if d = rbrace then
                  some (.obj (JsonFields.ofList ((key, v) :: acc).reverse), _more)
                else none
              | [] => none
          | _ => none
      else none
    | [] => none

/-- Elements of a non-empty array after its opening bracket (or after a
comma). -/
def parseElems : Nat → List Json → List Char → Option (Json × List Char)
  | 0, _, _ => none
  | n + 1, acc, cs =>
    match parseValue n cs with
    | none => none
    | some (v, afterVal) =>
      match skipWs afterVal with
      | ',' :: more => parseElems n (v :: acc) more
      | ']' :: more => some (.arr (JsonList.ofList (v :: acc).reverse), more)
      | _ => none
end

/-- `hash.decodeJSON`: decode one JSON value from the raw bytes with
`dec.UseNumber()`, then `ensureEOF` — anything but whitespace after the
first value is "unexpected trailing JSON data". -/
def decodeJSON (raw : String) : Except String Json :=
  match parseValue (raw.length + 2) raw.data with
  | none => .error "invalid JSON"
  | some (v, rest) =>
    if skipWs rest = [] then .ok v else .error "unexpected trailing JSON data"

/-- `hash.CanonicalizeMeta`: empty input maps to nil output with no
error; otherwise the input must decode to a JSON object, which is
re-encoded with sorted keys. -/
def CanonicalizeMeta (raw : String) : Except String String :=
  if raw.length = 0 then .ok ""
  else
    match decodeJSON raw with
    | .error e => .error e
    | .ok v =>
      match v with
      | .obj fs => .ok (writeJSONValue (.obj fs))
      | _ => .error "meta must be a JSON object"

/-! ### Meta filtering (`store.FilterIntentsByMeta`) -/

/-- `json.Unmarshal(raw, &payload)` for `payload map[string]any`: the
whole input must be one valid JSON value; an object fills the map
(duplicate keys: last wins), a top-level `null` leaves it empty, any
other value is a type mismatch. -/
def unmarshalStringMap (raw : String) : Except String (List (String × Json)) :=
  match decodeJSON raw with
  | .error e => .error e
  | .ok .null => .ok []
  | .ok (.obj fs) => .ok (mapOf fs.toList)
  | .ok _ => .error "cannot unmarshal value into map"

/-- `store.matchesMetaFilters`: empty filters match everything; empty
raw meta matches nothing; otherwise decode the meta, keep only its
string-valued entries, and require every filter to match exactly. -/
def matchesMetaFilters (raw : String) (filters : List (String × String)) :
    Except String Bool :=
  if filters.isEmpty then .ok true
  else if raw.length = 0 then .ok false
  else
    match unmarshalStringMap raw with
    | .error e => .error ("decode meta: " ++ e)
    | .ok payload =>
      let meta := payload.filterMap fun p =>
        match p.2 with
        | .strv s => some (p.1, s)
        | _ => none
      .ok (filters.all fun f => lookupFirst f.1 meta == some f.2)

/-- Iteration of `FilterIntentsByMeta` over the intents: the first
match error aborts the whole call. -/
def filterIntentsGo (filters : List (String × String)) :
    List IntentRecord → Except String (List IntentRecord)
  | [] => .ok []
  | intent :: rest =>
    match matchesMetaFilters intent.Meta filters with
    | .error e => .error e
    | .ok true =>
      match filterIntentsGo filters rest with
      | .error e => .error e
      | .ok l => .ok (intent :: l)
    | .ok false => filterIntentsGo filters rest

/-- `store.FilterIntentsByMeta`: AND semantics over the filters; with no
filters the input is returned unchanged without looking at any meta. -/
def FilterIntentsByMeta (intents : List IntentRecord)
    (filters : List (String × String)) : Except String (List IntentRecord) :=
  if filters.isEmpty then .ok intents
  else filterIntentsGo filters intents

/-! ### RFC3339 timestamps (`time.Parse(time.RFC3339Nano, ·)` and
`parsed.UTC().Format(time.RFC3339Nano)`) -/

/-- Value of a decimal digit character, if it is one. -/
def digitVal (c : Char) : Option Nat :=
  if c.isDigit then some (c.toNat - 48) else none

/-- Two decimal digits. -/
def parse2 : List Char → Option (Nat × List Char)
  | a :: b :: rest =>
    match digitVal a, digitVal b with
    | some x, some y => some (10 * x + y, rest)
    | _, _ => none
  | _ => none

/-- Four decimal digits. -/
def parse4 : List Char → Option (Nat × List Char)
  | a :: b :: c :: d :: rest =>
    match digitVal a, digitVal b, digitVal c, digitVal d with
    | some w, some x, some y, some z => some (1000 * w + 100 * x + 10 * y + z, rest)
    | _, _, _, _ => none
  | _ => none

/-- Gregorian leap year. -/
def isLeap (y : Nat) : Bool := y % 4 = 0 && (y % 100 ≠ 0 || y % 400 = 0)

/-- Days in a month. -/
def daysInMonth (y m : Nat) : Nat :=
  if m = 2 then (if isLeap y then 29 else 28)
  else if m = 4 ∨ m = 6 ∨ m = 9 ∨ m = 11 then 30
  else 31

/-- Days since 1970-01-01 of a civil date (proleptic Gregorian),
computed via the standard era decomposition, year shifted by +400 to
stay in `Nat`. -/
def daysFromCivil (y m d : Nat) : Int :=
  let yy := if m ≤ 2 then y + 399 else y + 400
  let era := yy / 400
  let yoe := yy - era * 400
  let mp := if m > 2 then m - 3 else m + 9
  let doy := (153 * mp + 2) / 5 + d - 1
  let doe := yoe * 365 + yoe / 4 - yoe / 100 + doy
  (era * 146097 + doe : Int) - 865565

/-- Civil date (year, month, day) of a day count since 1970-01-01,
inverse of `daysFromCivil` on the supported year range. -/
def civilFromDays (days : Int) : Nat × Nat × Nat :=
  let zz := (days + 865565).toNat
  let era := zz / 146097
  let doe := zz % 146097
  let yoe := (doe - doe / 1460 + doe / 36524 - doe / 146096) / 365
  let y := yoe + era * 400
  let doy := doe - (365 * yoe + yoe / 4 - yoe / 100)
  let mp := (5 * doy + 2) / 153
  let d := doy - (153 * mp + 2) / 5 + 1
  let m := if mp < 10 then mp + 3 else mp - 9
  (if m ≤ 2 then y + 1 - 400 else y - 400, m, d)

/-- The fractional-second part.  Go's generic layout parser (the
fallback `time.Parse` takes when the strict RFC3339 fast path fails)
accepts either a period or a comma as the separator
(`commaOrPeriod` in `parseNanoseconds`, a Go 1.17 change), followed by
at least one digit; nanoseconds come from the first nine digits and
further digits are ignored.  A separator with no digit after it leaves
the fraction unconsumed in Go and the offset parse then rejects the
separator, so returning `none` here yields the same accepted set. -/
def parseFraction : List Char → Option (Nat × List Char)
  | c :: rest =>
    if c = '.' ∨ c = ',' then
      let p := takeDigits rest
      if p.1 = [] then none
      else
        let digits9 := (p.1 ++ List.replicate 9 '0').take 9
        some (digits9.foldl (fun acc d => 10 * acc + (d.toNat - 48)) 0, p.2)
    else some (0, c :: rest)
  | [] => some (0, [])

/-- The hour field.  The layout chunk `15` is `stdHour`, which the
generic parser reads with `getnum(value, false)`: two digits when the
second character is a digit, otherwise a single digit. -/
def parseHour : List Char → Option (Nat × List Char)
  | [] => none
  | a :: rest =>
    match digitVal a with
    | none => none
    | some x =>
      match rest with
      | b :: rest' =>
        match digitVal b with
        | some y => some (10 * x + y, rest')
        | none => some (x, b :: rest')
      | [] => some (x, [])

/-- The UTC offset: `Z` (uppercase only), or `±hh:mm`.  The generic
parser's range tests use `>` rather than `>=` ("as some people do
write offsets of 24 hours or 60 minutes"), so `hh ≤ 24` and `mm ≤ 60`
are accepted.  Returns the offset in seconds east of UTC. -/
def parseOffset : List Char → Option (Int × List Char)
  | 'Z' :: rest => some (0, rest)
  | s :: rest =>
    if s = '+' ∨ s = '-' then
      match parse2 rest with
      | some (hh, ':' :: rest') =>
        match parse2 rest' with
        | some (mm, rest'') =>
          if hh ≤ 24 ∧ mm ≤ 60 then
            let mag : Int := hh * 3600 + mm * 60
            some (if s = '+' then mag else -mag, rest'')
          else none
        | none => none
      | _ => none
    else none
  | [] => none

/-- `time.Parse(time.RFC3339Nano, s)`, reduced to the instant it
denotes: nanoseconds since the Unix epoch (date fields validated, the
offset applied).  `none` models a parse error.  The accepted language
is that of Go's generic layout parser for the RFC3339Nano layout,
which `time.Parse` falls back to when its strict fast path fails and
which is a superset of the fast path: four-digit year, two-digit
month/day/minute/second, one- or two-digit hour, optional fraction
after `.` or `,`, and a `Z` or `±hh:mm` offset with the inclusive
24/60 bounds. -/
def parseRFC3339 (s : String) : Option Int :=
  match parse4 s.data with
  | none => none
  | some (year, rest1) =>
    match rest1 with
    | '-' :: rest2 =>
      match parse2 rest2 with
      | none => none
      | some (month, rest3) =>
        match rest3 with
        | '-' :: rest4 =>
          match parse2 rest4 with
          | none => none
          | some (day, rest5) =>
            match rest5 with
            | 'T' :: rest6 =>
              match parseHour rest6 with
              | none => none
              | some (hour, rest7) =>
                match rest7 with
                | ':' :: rest8 =>
                  match parse2 rest8 with
                  | none => none
                  | some (minute, rest9) =>
                    match rest9 with
                    | ':' :: rest10 =>
                      match parse2 rest10 with
                      | none => none
                      | some (second, rest11) =>
                        match parseFraction rest11 with
                        | none => none
                        | some (nanos, rest12) =>
                          match parseOffset rest12 with
                          | none => none
                          | some (offset, rest13) =>
                            if rest13 = [] ∧ 1 ≤ month ∧ month ≤ 12 ∧
                                1 ≤ day ∧ day ≤ daysInMonth year month ∧
                                hour ≤ 23 ∧ minute ≤ 59 ∧ second ≤ 59 then
                              some (((daysFromCivil year month day * 86400 +
                                (hour * 3600 + minute * 60 + second : Nat)) - offset) *
                                  1000000000 + (nanos : Nat))
                            else none
                    | _ => none
                | _ => none
            | _ => none
        | _ => none
    | _ => none

/-- Fixed-width decimal rendering. -/
def padNum (width n : Nat) : List Char :=
  (List.range width).reverse.map fun i => Char.ofNat (48 + n / 10 ^ i % 10)

/-- Drop trailing zero characters (RFC3339Nano's `.999999999` verb omits
trailing zeros of the fraction). -/
def dropTrailingZeros (cs : List Char) : List Char :=
  (cs.reverse.dropWhile (fun c => c = '0')).reverse

/-- `parsed.UTC().Format(time.RFC3339Nano)`: the unique textual form of
an instant — UTC date and time, fraction without trailing zeros and
omitted when zero, `Z` suffix. -/
def formatRFC3339Nano (t : Int) : String :=
  let ns := (t.emod 1000000000).toNat
  let secs := (t - ns) / 1000000000
  let days := secs / 86400
  let sod := (secs - days * 86400).toNat
  let ymd := civilFromDays days
  let frac := if ns = 0 then [] else '.' :: dropTrailingZeros (padNum 9 ns)
  String.mk
    (padNum 4 ymd.1 ++ '-' :: padNum 2 ymd.2.1 ++ '-' :: padNum 2 ymd.2.2 ++
      'T' :: padNum 2 (sod / 3600) ++ ':' :: padNum 2 (sod / 60 % 60) ++
      ':' :: padNum 2 (sod % 60) ++ frac ++ ['Z'])

/-- `hash.normalizeRFC3339`: re-parse and re-format to the fixed UTC
nanosecond-precision form. -/
def normalizeRFC3339 (value : String) : Except String String :=
  match parseRFC3339 value with
  | none => .error "parsing time failed"
  | some t => .ok (formatRFC3339Nano t)

/-! ### SHA-256 (`crypto/sha256`) and hex (`encoding/hex`) -/

/-- UTF-8 bytes of one character (Go strings are UTF-8 byte slices). -/
def utf8Bytes (c : Char) : List Nat :=
  let n := c.toNat
  if n < 0x80 then [n]
  else if n < 0x800 then [0xC0 + n / 64, 0x80 + n % 64]
  else if n < 0x10000 then [0xE0 + n / 4096, 0x80 + n / 64 % 64, 0x80 + n % 64]
  else [0xF0 + n / 262144, 0x80 + n / 4096 % 64, 0x80 + n / 64 % 64, 0x80 + n % 64]

/-- A string as its UTF-8 bytes. -/
def strBytes (s : String) : List Nat :=
  s.data.foldr (fun c acc => utf8Bytes c ++ acc) []

/-- 32-bit word rotation right. -/
def rotr (k n : Nat) : Nat := ((n >>> k) + (n <<< (32 - k))) % 4294967296

/-- SHA-256 Ch. -/
def shaCh (e f g : Nat) : Nat := ((e &&& f) ^^^ ((e ^^^ 4294967295) &&& g))

/-- SHA-256 Maj. -/
def shaMaj (a b c : Nat) : Nat := (a &&& b) ^^^ (a &&& c) ^^^ (b &&& c)

/-- SHA-256 Σ0. -/
def bigSigma0 (a : Nat) : Nat := rotr 2 a ^^^ rotr 13 a ^^^ rotr 22 a

/-- SHA-256 Σ1. -/
def bigSigma1 (e : Nat) : Nat := rotr 6 e ^^^ rotr 11 e ^^^ rotr 25 e

/-- SHA-256 σ0. -/
def smallSigma0 (x : Nat) : Nat := rotr 7 x ^^^ rotr 18 x ^^^ (x >>> 3)

/-- SHA-256 σ1. -/
def smallSigma1 (x : Nat) : Nat := rotr 17 x ^^^ rotr 19 x ^^^ (x >>> 10)

/-- The 64 SHA-256 round constants. -/
def sha256K : List Nat :=
  [1116352408, 1899447441, 3049323471, 3921009573,
   961987163, 1508970993, 2453635748, 2870763221,
   3624381080, 310598401, 607225278, 1426881987,
   1925078388, 2162078206, 2614888103, 3248222580,
   3835390401, 4022224774, 264347078, 604807628,
   770255983, 1249150122, 1555081692, 1996064986,
   2554220882, 2821834349, 2952996808, 3210313671,
   3336571891, 3584528711, 113926993, 338241895,
   666307205, 773529912, 1294757372, 1396182291,
   1695183700, 1986661051, 2177026350, 2456956037,
   2730485921, 2820302411, 3259730800, 3345764771,
   3516065817, 3600352804, 4094571909, 275423344,
   430227734, 506948616, 659060556, 883997877,
   958139571, 1322822218, 1537002063, 1747873779,
   1955562222, 2024104815, 2227730452, 2361852424,
   2428436474, 2756734187, 3204031479, 3329325298]

/-- The eight-word SHA-256 working state. -/
structure Hv where
  a : Nat
  b : Nat
  c : Nat
  d : Nat
  e : Nat
  f : Nat
  g : Nat
  h : Nat

/-- The SHA-256 initial hash value. -/
def initHv : Hv :=
  ⟨1779033703, 3144134277, 1013904242, 2773480762,
   1359893119, 2600822924, 528734635, 1541459225⟩

/-- One step of the message-schedule extension (the list holds the
schedule so far, most recent word first). -/
def extendWStep (ws : List Nat) : List Nat :=
  ((smallSigma1 (ws.getD 1 0) + ws.getD 6 0 + smallSigma0 (ws.getD 14 0) + ws.getD 15 0) %
      4294967296) :: ws

/-- Iterate the schedule extension. -/
def extendWAux : Nat → List Nat → List Nat
  | 0, ws => ws
  | n + 1, ws => extendWAux n (extendWStep ws)

/-- The 64-word message schedule of one block (given as 16 words). -/
def schedule (block : List Nat) : List Nat :=
  (extendWAux 48 block.reverse).reverse

/-- One SHA-256 round. -/
def roundStep (st : Hv) (k w : Nat) : Hv :=
  let t1 := (st.h + bigSigma1 st.e + shaCh st.e st.f st.g + k + w) % 4294967296
  let t2 := (bigSigma0 st.a + shaMaj st.a st.b st.c) % 4294967296
  ⟨(t1 + t2) % 4294967296, st.a, st.b, st.c, (st.d + t1) % 4294967296, st.e, st.f, st.g⟩

/-- Compression of one 16-word block into the running state. -/
def compressBlock (st : Hv) (block : List Nat) : Hv :=
  let f := ((sha256K.zip (schedule block)).foldl (fun s p => roundStep s p.1 p.2) st)
  ⟨(st.a + f.a) % 4294967296, (st.b + f.b) % 4294967296, (st.c + f.c) % 4294967296,
   (st.d + f.d) % 4294967296, (st.e + f.e) % 4294967296, (st.f + f.f) % 4294967296,
   (st.g + f.g) % 4294967296, (st.h + f.h) % 4294967296⟩

/-- Big-endian bytes of the 64-bit message bit length. -/
def lenBytes (n : Nat) : List Nat :=
  [(n >>> 56) % 256, (n >>> 48) % 256, (n >>> 40) % 256, (n >>> 32) % 256,
   (n >>> 24) % 256, (n >>> 16) % 256, (n >>> 8) % 256, n % 256]

/-- SHA-256 padding: a 0x80 byte, zeros to 56 mod 64, then the bit
length. -/
def sha256Pad (msg : List Nat) : List Nat :=
  let r := (msg.length + 1) % 64
  let z := if r ≤ 56 then 56 - r else 120 - r
  msg ++ 0x80 :: (List.replicate z 0 ++ lenBytes (8 * msg.length))

/-- Big-endian 32-bit words of a byte sequence. -/
def chunkWords : List Nat → List Nat
  | b1 :: b2 :: b3 :: b4 :: rest =>
    (b1 * 16777216 + b2 * 65536 + b3 * 256 + b4) :: chunkWords rest
  | _ => []

/-- 16-word blocks of a word sequence. -/
def chunkBlocks : List Nat → List (List Nat)
  | w1 :: w2 :: w3 :: w4 :: w5 :: w6 :: w7 :: w8 :: w9 :: w10 :: w11 :: w12 :: w13 :: w14 :: w15 :: w16 :: rest =>
    [w1, w2, w3, w4, w5, w6, w7, w8, w9, w10, w11, w12, w13, w14, w15, w16] :: chunkBlocks rest
  | _ => []

/-- Big-endian bytes of a 32-bit word. -/
def wordBytes (w : Nat) : List Nat :=
  [(w >>> 24) % 256, (w >>> 16) % 256, (w >>> 8) % 256, w % 256]

/-- The 32-byte digest of a final state. -/
def digestBytes (st : Hv) : List Nat :=
  wordBytes st.a ++ wordBytes st.b ++ wordBytes st.c ++ wordBytes st.d ++
    wordBytes st.e ++ wordBytes st.f ++ wordBytes st.g ++ wordBytes st.h

/-- `sha256.Sum256` over a byte sequence. -/
def sha256 (msg : List Nat) : List Nat :=
  digestBytes ((chunkBlocks (chunkWords (sha256Pad msg))).foldl compressBlock initHv)

/-- `hex.EncodeToString`: lowercase hexadecimal of a byte sequence. -/
def hexOfBytes (bs : List Nat) : String :=
  String.mk (bs.foldr (fun b acc => hexDigitChar (b / 16) :: hexDigitChar (b % 16) :: acc) [])

/-! ### The hasher (`hash.HashIntent`, `hash.canonicalIntentPreimage`) -/

/-- One `addStringField` fragment of the preimage (the leading comma is
added by callers; `id` comes first). -/
def strField (name value : String) : String :=
  "\"" ++ name ++ "\":" ++ jsonEscape value

/-- `hash.canonicalIntentPreimage`: validate the six mandatory fields,
normalize the timestamp, canonicalize the metadata, and lay the present
fields out in fixed order. -/
def canonicalIntentPreimage (record : IntentRecord) : Except String String :=
  if record.ID.length = 0 then .error "id is required for hashing"
  else if record.CreatedAt.length = 0 then .error "created_at is required for hashing"
  else
    match normalizeRFC3339 record.CreatedAt with
    | .error _ => .error "created_at must be RFC3339"
    | .ok createdAt =>
      if record.Author.length = 0 then .error "author is required for hashing"
      else if record.SourceType.length = 0 then .error "source_type is required for hashing"
      else if record.Prompt.length = 0 then .error "prompt is required for hashing"
      else if record.Response.length = 0 then .error "response is required for hashing"
      else
        match (if record.Meta.length > 0 then CanonicalizeMeta record.Meta else .ok "") with
        | .error e => .error e
        | .ok meta =>
          .ok (String.mk [lbrace] ++
            strField "id" record.ID ++ "," ++
            strField "created_at" createdAt ++ "," ++
            strField "author" record.Author ++ "," ++
            strField "source_type" record.SourceType ++
            (if record.Title ≠ "" then "," ++ strField "title" record.Title else "") ++
            "," ++ strField "prompt" record.Prompt ++ "," ++
            strField "response" record.Response ++
            (if meta.length > 0 then "," ++ "\"meta\":" ++ meta else "") ++
            (if record.PrevHash ≠ "" then "," ++ strField "prev_hash" record.PrevHash else "") ++
            String.mk [rbrace])

/-- `hash.HashIntent`: normalize, build the canonical preimage, digest
it with SHA-256 and emit lowercase hex. -/
def HashIntent (record : IntentRecord) : Except String String :=
  match canonicalIntentPreimage record.Normalize with
  | .error e => .error e
  | .ok preimage => .ok (hexOfBytes (sha256 (strBytes preimage)))

/-! ### Listing (`store.ListIntents`) -/

/-- Row order of `ORDER BY created_at DESC` on the text column,
modelling the SQL engine's ordering: descending bytewise comparison of
the stored `created_at` strings. -/
def createdDesc (a b : IntentRecord) : Prop := strLe b.CreatedAt a.CreatedAt = true

instance : DecidableRel createdDesc :=
  fun a b => inferInstanceAs (Decidable (strLe b.CreatedAt a.CreatedAt = true))

/-- `store.ListIntents`: `limit <= 0` falls back to 100; the query
`SELECT ... ORDER BY created_at DESC LIMIT ?` is modelled as sorting the
stored rows by `created_at` descending and taking at most the limit. -/
def ListIntents (rows : List IntentRecord) (limit : Int) : List IntentRecord :=
  let lim : Int := if limit ≤ 0 then 100 else limit
  (List.insertionSort createdDesc rows).take lim.toNat

/-! ### Auxiliary definitions used only by the statements and proofs -/

/-- The sixteen characters `hex.EncodeToString` can emit. -/
def lowerHexChars : List Char := "0123456789abcdef".data

/-- Modelled from the spec: "every free-text field has CRLF and lone CR
converted to LF" as a single left-to-right scan, used as the reference
behaviour that the source's two `strings.ReplaceAll` passes are checked
against. -/
def specNewlinesLF : List Char → List Char
  | '\r' :: '\n' :: rest => '\n' :: specNewlinesLF rest
  | '\r' :: rest => '\n' :: specNewlinesLF rest
  | c :: rest => c :: specNewlinesLF rest
  | [] => []

/-- The keys of an object's members, in source order. -/
def fieldKeys : JsonFields → List String
  | .nil => []
  | .cons k _ fs => k :: fieldKeys fs

/-- Number of members. -/
def lengthF : JsonFields → Nat
  | .nil => 0
  | .cons _ _ fs => lengthF fs + 1

/-- First member bound to a key. -/
def lookupFieldJ (k : String) : JsonFields → Option Json
  | .nil => none
  | .cons k' v fs => if k' == k then some v else lookupFieldJ k fs

/-- Does any member bind this key? -/
def containsKeyF (k : String) : JsonFields → Bool
  | .nil => false
  | .cons k' _ fs => k' == k || containsKeyF k fs

/-- Are the member keys pairwise distinct? -/
def nodupKeysB : JsonFields → Bool
  | .nil => true
  | .cons k _ fs => !containsKeyF k fs && nodupKeysB fs

mutual
/-- Decidable test that two decoded values are equal up to recursively
permuting the (distinct) keys of objects: scalars must coincide, arrays
must correspond elementwise, and two objects must have duplicate-free
key sets in bijection with recursively key-permuted values. -/
def keyPermB (v w : Json) : Bool :=
  match v, w with
  | .null, .null => true
  | .boolv a, .boolv b => a == b
  | .strv a, .strv b => a == b
  | .numv a, .numv b => a == b
  | .arr xs, .arr ys => keyPermListB xs ys
  | .obj fs, .obj gs =>
    nodupKeysB fs && nodupKeysB gs && (lengthF fs == lengthF gs) && keySubB fs gs
  | _, _ => false
termination_by structural v

/-- Elementwise `keyPermB` on array elements. -/
def keyPermListB (xs ys : JsonList) : Bool :=
  match xs, ys with
  | .nil, .nil => true
  | .cons x xs', .cons y ys' => keyPermB x y && keyPermListB xs' ys'
  | _, _ => false
termination_by structural xs

/-- Every member of the first object has a member of the second with the
same key and a `keyPermB`-related value. -/
def keySubB (fs gs : JsonFields) : Bool :=
  match fs with
  | .nil => true
  | .cons k v fs' =>
    (match lookupFieldJ k gs with
     | some w => keyPermB v w
     | none => false) && keySubB fs' gs
termination_by structural fs
end

/-- Strict key order: used to identify canonically emitted objects. -/
def keyLt {α : Type} (p q : String × α) : Prop := keyLe p q ∧ p.1 ≠ q.1

/-! ## Lemmas about the byte-order comparison -/

theorem char_toNat_inj {a b : Char} (h : a.toNat = b.toNat) : a = b := by
  refine Char.ext ?_
  unfold Char.toNat at h
  exact UInt32.toNat.inj h

theorem charListLe_refl : ∀ as : List Char, charListLe as as = true
  | [] => rfl
  | a :: as => by simp [charListLe, charListLe_refl as]

theorem charListLe_total : ∀ as bs : List Char,
    charListLe as bs = true ∨ charListLe bs as = true
  | [], _ => .inl rfl
  | _ :: _, [] => .inr rfl
  | a :: as, b :: bs => by
    rcases Nat.lt_trichotomy a.toNat b.toNat with h | h | h
    · left; simp [charListLe, h]
    · have ih := charListLe_total as bs
      simp only [charListLe, h, Nat.lt_irrefl, if_false]
      exact ih
    · right; simp [charListLe, h]

theorem charListLe_trans : ∀ as bs cs : List Char,
    charListLe as bs = true → charListLe bs cs = true → charListLe as cs = true
  | [], _, _ => fun _ _ => rfl
  | _ :: _, [], _ => fun h _ => by simp [charListLe] at h
  | _ :: _, _ :: _, [] => fun _ h => by simp [charListLe] at h
  | a :: as, b :: bs, c :: cs => by
    intro h1 h2
    simp only [charListLe] at h1 h2 ⊢
    by_cases hab : a.toNat < b.toNat
    · by_cases hbc : b.toNat < c.toNat
      · have hac : a.toNat < c.toNat := by omega
        simp [hac]
      · by_cases hcb : c.toNat < b.toNat
        · simp [hbc, hcb] at h2
        · have hac : a.toNat < c.toNat := by omega
          simp [hac]
    · by_cases hba : b.toNat < a.toNat
      · simp [hab, hba] at h1
      · simp [hab, hba] at h1
        by_cases hbc : b.toNat < c.toNat
        · have hac : a.toNat < c.toNat := by omega
          simp [hac]
        · by_cases hcb : c.toNat < b.toNat
          · simp [hbc, hcb] at h2
          · simp [hbc, hcb] at h2
            have h3 : ¬ a.toNat < c.toNat := by omega
            have h4 : ¬ c.toNat < a.toNat := by omega
            simp [h3, h4]
            exact charListLe_trans as bs cs h1 h2

theorem charListLe_antisymm : ∀ as bs : List Char,
    charListLe as bs = true → charListLe bs as = true → as = bs
  | [], [] => fun _ _ => rfl
  | [], _ :: _ => fun _ h => by simp [charListLe] at h
  | _ :: _, [] => fun h _ => by simp [charListLe] at h
  | a :: as, b :: bs => by
    intro h1 h2
    simp only [charListLe] at h1 h2
    by_cases hab : a.toNat < b.toNat <;> by_cases hba : b.toNat < a.toNat <;>
      simp [hab, hba] at h1 h2
    · omega
    · have : a = b := char_toNat_inj (by omega)
      rw [this, charListLe_antisymm as bs h1 h2]

theorem strLe_antisymm {s t : String} (h1 : strLe s t = true) (h2 : strLe t s = true) :
    s = t := by
  cases s; cases t
  exact congrArg String.mk (charListLe_antisymm _ _ h1 h2)

/-! ## Newline normalization -/

theorem replaceCRLF_cons_ne {c : Char} (rest : List Char) (hc : c ≠ '\r') :
    replaceCRLF (c :: rest) = c :: replaceCRLF rest := by
  cases rest with
  | nil =>
    conv_lhs => rw [replaceCRLF.eq_def]
    simp [hc]
  | cons d rest' =>
    conv_lhs => rw [replaceCRLF.eq_def]
    simp [hc]

theorem replaceCRLF_of_no_cr : ∀ cs : List Char, '\r' ∉ cs → replaceCRLF cs = cs := by
  intro cs h
  induction cs with
  | nil => rfl
  | cons c rest ih =>
    have hc : c ≠ '\r' := fun e => h (e ▸ List.mem_cons_self c rest)
    rw [replaceCRLF_cons_ne rest hc, ih (fun m => h (List.mem_cons_of_mem c m))]

theorem replaceCR_no_cr (cs : List Char) : '\r' ∉ replaceCR cs := by
  intro h
  simp only [replaceCR, List.mem_map] at h
  obtain ⟨c, _, hc⟩ := h
  by_cases hr : c = '\r' <;> simp [hr] at hc

theorem replaceCR_of_no_cr (cs : List Char) (h : '\r' ∉ cs) : replaceCR cs = cs := by
  simp only [replaceCR]
  conv_rhs => rw [← List.map_id cs]
  apply List.map_congr_left
  intro c hcm
  have hne : c ≠ '\r' := fun e => h (e ▸ hcm)
  simp [hne]

theorem replaceCRLF_ne_nil {c : Char} (rest : List Char) :
    replaceCRLF (c :: rest) ≠ [] := by
  by_cases hc : c = '\r'
  · subst hc
    cases rest with
    | nil => simp [replaceCRLF]
    | cons d rest' =>
      by_cases hd : d = '\n'
      · subst hd; simp [replaceCRLF]
      · rw [show replaceCRLF ('\r' :: d :: rest') = '\r' :: replaceCRLF (d :: rest') from by
          conv_lhs => rw [replaceCRLF.eq_def]
          simp [hd]]
        simp
  · rw [replaceCRLF_cons_ne rest hc]; simp

theorem specNewlinesLF_eq : ∀ cs : List Char,
    replaceCR (replaceCRLF cs) = specNewlinesLF cs
  | [] => rfl
  | c :: rest => by
    by_cases hc : c = '\r'
    · subst hc
      cases rest with
      | nil => rfl
      | cons d rest' =>
        by_cases hd : d = '\n'
        · subst hd
          show replaceCR ('\n' :: replaceCRLF rest') = specNewlinesLF ('\r' :: '\n' :: rest')
          rw [show specNewlinesLF ('\r' :: '\n' :: rest') = '\n' :: specNewlinesLF rest' from rfl]
          have hrec := specNewlinesLF_eq rest'
          simp only [replaceCR, List.map] at hrec ⊢
          rw [if_neg (by decide), hrec]
        · have h1 : replaceCRLF ('\r' :: d :: rest') = '\r' :: replaceCRLF (d :: rest') := by
            conv_lhs => rw [replaceCRLF.eq_def]
            simp [hd]
          have h2 : specNewlinesLF ('\r' :: d :: rest') = '\n' :: specNewlinesLF (d :: rest') := by
            conv_lhs => rw [specNewlinesLF.eq_def]
            simp [hd]
          rw [h1, h2]
          simp only [replaceCR, List.map, if_pos rfl]
          exact congrArg _ (specNewlinesLF_eq (d :: rest'))
    · have h1 : replaceCRLF (c :: rest) = c :: replaceCRLF rest := replaceCRLF_cons_ne rest hc
      have h2 : specNewlinesLF (c :: rest) = c :: specNewlinesLF rest := by
        cases rest with
        | nil =>
          conv_lhs => rw [specNewlinesLF.eq_def]
          simp [hc]
        | cons d rest' =>
          conv_lhs => rw [specNewlinesLF.eq_def]
          simp [hc]
      rw [h1, h2]
      simp only [replaceCR, List.map, if_neg hc]
      exact congrArg _ (specNewlinesLF_eq rest)

theorem string_eq_empty_iff {s : String} : s = "" ↔ s.data = [] := by
  cases s
  simp [String.ext_iff]

theorem normalizeNewlines_empty : normalizeNewlines "" = "" := rfl

theorem normalizeNewlines_ne_empty {s : String} (h : s ≠ "") :
    normalizeNewlines s ≠ "" := by
  unfold normalizeNewlines
  rw [if_neg h]
  intro he
  rw [string_eq_empty_iff] at he
  simp only at he
  have hd : s.data ≠ [] := fun e => h (string_eq_empty_iff.mpr e)
  cases hs : s.data with
  | nil => exact hd hs
  | cons c rest =>
    rw [hs] at he
    have : replaceCRLF (c :: rest) ≠ [] := replaceCRLF_ne_nil rest
    cases hr : replaceCRLF (c :: rest) with
    | nil => exact this hr
    | cons x xs => rw [hr] at he; simp [replaceCR] at he

theorem normalizeNewlines_idem (s : String) :
    normalizeNewlines (normalizeNewlines s) = normalizeNewlines s := by
  by_cases h : s = ""
  · subst h; rfl
  · have hne := normalizeNewlines_ne_empty h
    conv_lhs => rw [normalizeNewlines]
    rw [if_neg hne]
    unfold normalizeNewlines
    rw [if_neg h]
    simp only
    rw [replaceCRLF_of_no_cr _ (replaceCR_no_cr _), replaceCR_of_no_cr _ (replaceCR_no_cr _)]

theorem Normalize_idem (r : IntentRecord) : r.Normalize.Normalize = r.Normalize := by
  cases r
  simp [IntentRecord.Normalize, normalizeNewlines_idem]

theorem hashIntent_normalize (r : IntentRecord) : HashIntent r.Normalize = HashIntent r := by
  unfold HashIntent
  rw [Normalize_idem]

theorem sha256_vector_abc :
    hexOfBytes (sha256 (strBytes "abc")) =
      "ba7816bf8f01cfea414140de5dae2223b00361a396177a9cb410ff61f20015ad" := by
  decide

theorem sha256_vector_empty :
    hexOfBytes (sha256 []) =
      "e3b0c44298fc1c149afbf4c8996fb92427ae41e4649b934ca495991b7852b855" := by
  decide

theorem string_length_eq_zero_iff {s : String} : s.length = 0 ↔ s = "" := by
  cases s
  simp [String.length, string_eq_empty_iff]

theorem normalizeNewlines_eq_empty_iff {s : String} :
    normalizeNewlines s = "" ↔ s = "" :=
  ⟨fun h => by_contra fun hs => normalizeNewlines_ne_empty hs h,
   fun h => by subst h; rfl⟩

theorem parse_some_ne_empty {s : String} {t : Int} (h : parseRFC3339 s = some t) :
    s ≠ "" := fun e => by
  subst e
  rw [show parseRFC3339 "" = none from rfl] at h
  cases h

/-! ## Digest shape -/

theorem hexDigitChar_mem (n : Nat) : hexDigitChar n ∈ lowerHexChars := by
  rcases Nat.lt_or_ge n 16 with h | h
  · interval_cases n <;> decide
  · unfold hexDigitChar
    repeat rw [if_neg (by omega)]
    decide

theorem string_mk_length (l : List Char) : (String.mk l).length = l.length := rfl

theorem hexFold_length : ∀ bs : List Nat,
    (List.foldr (fun b acc => hexDigitChar (b / 16) :: hexDigitChar (b % 16) :: acc) [] bs).length =
      2 * bs.length
  | [] => rfl
  | b :: rest => by
    simp only [List.foldr, List.length_cons, hexFold_length rest]
    omega

theorem hexOfBytes_length (bs : List Nat) : (hexOfBytes bs).length = 2 * bs.length := by
  rw [hexOfBytes, string_mk_length]
  exact hexFold_length bs

theorem hexFold_mem : ∀ bs : List Nat, ∀ c ∈
    List.foldr (fun b acc => hexDigitChar (b / 16) :: hexDigitChar (b % 16) :: acc) [] bs,
    c ∈ lowerHexChars
  | [] => by intro c hc; cases hc
  | b :: rest => by
    intro c hc
    simp only [List.foldr, List.mem_cons] at hc
    rcases hc with h | h | h
    · subst h; exact hexDigitChar_mem _
    · subst h; exact hexDigitChar_mem _
    · exact hexFold_mem rest c h

theorem hexOfBytes_mem (bs : List Nat) : ∀ c ∈ (hexOfBytes bs).data, c ∈ lowerHexChars :=
  hexFold_mem bs

theorem digestBytes_length (st : Hv) : (digestBytes st).length = 32 := by
  simp [digestBytes, wordBytes]

theorem sha256_length (msg : List Nat) : (sha256 msg).length = 32 :=
  digestBytes_length _

/-! ## C1 -/

/-- C1: for every record on which hashing succeeds, `HashIntent` is
deterministic (it is a pure function, so repeated calls coincide), and
the result is the 64-character lowercase-hexadecimal encoding of the
32-byte SHA-256 digest. -/
theorem hashIntent_deterministic_hex (r : IntentRecord) (hash : String)
    (hok : HashIntent r = .ok hash) :
    HashIntent r = HashIntent r ∧ hash.length = 64 ∧
      ∀ c ∈ hash.data, c ∈ lowerHexChars := by
  unfold HashIntent at hok
  cases hpre : canonicalIntentPreimage r.Normalize with
  | error e => rw [hpre] at hok; cases hok
  | ok p =>
    rw [hpre] at hok
    have hh : hexOfBytes (sha256 (strBytes p)) = hash := by injection hok
    subst hh
    exact ⟨rfl, by rw [hexOfBytes_length, sha256_length], hexOfBytes_mem _⟩

/-- C1 witness: the spec's example record hashes to a concrete
64-character lowercase hex string (twice, trivially, by determinism). -/
theorem hashIntent_deterministic_hex_witness :
    HashIntent ⟨"x", "2026-02-09T10:00:00Z", "a", "cli", "", "p", "r", "", "", ""⟩ =
      HashIntent ⟨"x", "2026-02-09T10:00:00Z", "a", "cli", "", "p", "r", "", "", ""⟩ ∧
    ("5b1974ffea1ff80bfb73c98a1db437a2421ed142c4ecf6f9925da9cbb839a630" : String).length = 64 ∧
    ∀ c ∈ ("5b1974ffea1ff80bfb73c98a1db437a2421ed142c4ecf6f9925da9cbb839a630" : String).data,
      c ∈ lowerHexChars :=
  hashIntent_deterministic_hex _
    "5b1974ffea1ff80bfb73c98a1db437a2421ed142c4ecf6f9925da9cbb839a630" (by decide)

/-! ## C3 -/

/-- C3 counterexample: two records identical except that the metadata
number is spelled `1` versus `1.0` (numerically equal, different
literal tokens) receive different digests, because `decodeJSON` uses
`json.Number` and `writeJSONValue` re-emits the original token. -/
theorem hashIntent_numeric_spelling_counterexample :
    HashIntent ⟨"x", "2026-02-09T10:00:00Z", "a", "cli", "", "p", "r",
        "\x7b\"n\":1\x7d", "", ""⟩ ≠
      HashIntent ⟨"x", "2026-02-09T10:00:00Z", "a", "cli", "", "p", "r",
        "\x7b\"n\":1.0\x7d", "", ""⟩ := by
  decide

/-- C3 amended: the canonicalizer fixes the token-preserving strategy —
every JSON number is re-emitted as its original `json.Number` literal
token, so metadata differing only in the spelling of a numerically
equal number canonicalizes (and hence hashes) differently, as the
`1` / `1.0` pair shows. -/
theorem writeJSONValue_preserves_number_tokens :
    (∀ t : String, writeJSONValue (.numv t) = t) ∧
    CanonicalizeMeta "\x7b\"n\":1\x7d" = .ok "\x7b\"n\":1\x7d" ∧
    CanonicalizeMeta "\x7b\"n\":1.0\x7d" = .ok "\x7b\"n\":1.0\x7d" :=
  ⟨fun _ => rfl, by decide, by decide⟩

/-! ## C4 -/

/-- C4: `HashIntent` is invariant under rewriting CRLF / lone CR line
endings to LF in the free-text fields (equivalently, under `Normalize`,
which performs exactly that rewriting); `Normalize` is a total Lean
function that passes empty strings through unchanged, and the two
`ReplaceAll` passes of the source agree with the spec's single
"convert every CRLF and lone CR to LF" scan. -/
theorem hashIntent_newline_invariance :
    (∀ r : IntentRecord, HashIntent r = HashIntent r.Normalize) ∧
    normalizeNewlines "" = "" ∧
    (∀ s : String, normalizeNewlines s = String.mk (specNewlinesLF s.data)) := by
  refine ⟨fun r => (hashIntent_normalize r).symm, rfl, fun s => ?_⟩
  by_cases h : s = ""
  · subst h; rfl
  · unfold normalizeNewlines
    rw [if_neg h, specNewlinesLF_eq]

/-! ## C5 -/

/-- C5: the hash field never enters its own preimage — overwriting it
with any string leaves the recomputed digest unchanged. -/
theorem hashIntent_excludes_hash_field (r : IntentRecord) (h' : String) :
    HashIntent { r with Hash := h' } = HashIntent r := rfl

/-! ## C10 -/

/-- C10: `CanonicalizeMeta` on empty input returns nil with no error
(the malformed-input branch is unreachable there), and a record whose
`Meta` is unset hashes successfully whenever its mandatory fields are
present and its timestamp parses. -/
theorem canonicalizeMeta_empty_ok :
    CanonicalizeMeta "" = .ok "" ∧
    ∀ r : IntentRecord, r.Meta = "" → r.ID ≠ "" →
      (parseRFC3339 r.CreatedAt).isSome = true → r.Author ≠ "" → r.SourceType ≠ "" →
      r.Prompt ≠ "" → r.Response ≠ "" → ∃ hash, HashIntent r = .ok hash := by
  refine ⟨rfl, ?_⟩
  intro r hMeta hID hparse hAu hST hP hR
  obtain ⟨t, ht⟩ : ∃ t, parseRFC3339 r.CreatedAt = some t := by
    cases hp : parseRFC3339 r.CreatedAt with
    | none => rw [hp] at hparse; cases hparse
    | some t => exact ⟨t, rfl⟩
  have hCA : r.CreatedAt ≠ "" := parse_some_ne_empty ht
  have e1 : (r.Normalize.ID.length = 0) = False :=
    eq_false fun h => hID (string_length_eq_zero_iff.mp h)
  have e2 : (r.Normalize.CreatedAt.length = 0) = False :=
    eq_false fun h => hCA (string_length_eq_zero_iff.mp h)
  have hnorm : normalizeRFC3339 r.Normalize.CreatedAt = .ok (formatRFC3339Nano t) := by
    unfold normalizeRFC3339
    rw [show r.Normalize.CreatedAt = r.CreatedAt from rfl, ht]
  have e3 : (r.Normalize.Author.length = 0) = False :=
    eq_false fun h => normalizeNewlines_ne_empty hAu (string_length_eq_zero_iff.mp h)
  have e4 : (r.Normalize.SourceType.length = 0) = False :=
    eq_false fun h => normalizeNewlines_ne_empty hST (string_length_eq_zero_iff.mp h)
  have e5 : (r.Normalize.Prompt.length = 0) = False :=
    eq_false fun h => normalizeNewlines_ne_empty hP (string_length_eq_zero_iff.mp h)
  have e6 : (r.Normalize.Response.length = 0) = False :=
    eq_false fun h => normalizeNewlines_ne_empty hR (string_length_eq_zero_iff.mp h)
  have e7 : (r.Normalize.Meta.length > 0) = False := by
    rw [show r.Normalize.Meta = r.Meta from rfl, hMeta]
    simp
  unfold HashIntent canonicalIntentPreimage
  simp only [e1, e2, hnorm, e3, e4, e5, e6, e7, if_false]
  exact ⟨_, rfl⟩

/-- C10 witness: a concrete record with unset metadata hashes
successfully. -/
theorem canonicalizeMeta_empty_ok_witness :
    CanonicalizeMeta "" = .ok "" ∧
    ∃ hash, HashIntent ⟨"x", "2026-02-09T10:00:00Z", "a", "cli", "", "p", "r", "", "", ""⟩ =
      .ok hash :=
  ⟨canonicalizeMeta_empty_ok.1,
   canonicalizeMeta_empty_ok.2 _ rfl (by decide) (by decide) (by decide) (by decide)
     (by decide) (by decide)⟩

/-! ## C6 -/

/-- C6: a record with an empty mandatory field makes `HashIntent` fail
with the error naming that field (fields are checked in source order:
id, created_at — whose value must also parse before later checks run —
author, source_type, prompt, response), and no digest is returned. -/
theorem hashIntent_missing_field_errors (r : IntentRecord) :
    (r.ID = "" → HashIntent r = .error "id is required for hashing") ∧
    (r.ID ≠ "" → r.CreatedAt = "" →
      HashIntent r = .error "created_at is required for hashing") ∧
    (r.ID ≠ "" → (∃ t, parseRFC3339 r.CreatedAt = some t) → r.Author = "" →
      HashIntent r = .error "author is required for hashing") ∧
    (r.ID ≠ "" → (∃ t, parseRFC3339 r.CreatedAt = some t) → r.Author ≠ "" →
      r.SourceType = "" → HashIntent r = .error "source_type is required for hashing") ∧
    (r.ID ≠ "" → (∃ t, parseRFC3339 r.CreatedAt = some t) → r.Author ≠ "" →
      r.SourceType ≠ "" → r.Prompt = "" →
      HashIntent r = .error "prompt is required for hashing") ∧
    (r.ID ≠ "" → (∃ t, parseRFC3339 r.CreatedAt = some t) → r.Author ≠ "" →
      r.SourceType ≠ "" → r.Prompt ≠ "" → r.Response = "" →
      HashIntent r = .error "response is required for hashing") := by
  refine ⟨?_, ?_, ?_, ?_, ?_, ?_⟩
  · intro h
    have e1 : (r.Normalize.ID.length = 0) = True :=
      eq_true (string_length_eq_zero_iff.mpr h)
    unfold HashIntent canonicalIntentPreimage
    simp only [e1, if_true]
  · intro hID h
    have e1 : (r.Normalize.ID.length = 0) = False :=
      eq_false fun hh => hID (string_length_eq_zero_iff.mp hh)
    have e2 : (r.Normalize.CreatedAt.length = 0) = True :=
      eq_true (string_length_eq_zero_iff.mpr h)
    unfold HashIntent canonicalIntentPreimage
    simp only [e1, e2, if_true, if_false]
  all_goals
    intro hID ht
    obtain ⟨t, ht⟩ := ht
    have e1 : (r.Normalize.ID.length = 0) = False :=
      eq_false fun hh => hID (string_length_eq_zero_iff.mp hh)
    have e2 : (r.Normalize.CreatedAt.length = 0) = False :=
      eq_false fun hh => parse_some_ne_empty ht (string_length_eq_zero_iff.mp hh)
    have hnorm : normalizeRFC3339 r.Normalize.CreatedAt = .ok (formatRFC3339Nano t) := by
      unfold normalizeRFC3339
      rw [show r.Normalize.CreatedAt = r.CreatedAt from rfl, ht]
  · intro hAu
    have e3 : (r.Normalize.Author.length = 0) = True :=
      eq_true (string_length_eq_zero_iff.mpr (normalizeNewlines_eq_empty_iff.mpr hAu))
    unfold HashIntent canonicalIntentPreimage
    simp only [e1, e2, hnorm, e3, if_true, if_false]
  · intro hAu hST
    have e3 : (r.Normalize.Author.length = 0) = False :=
      eq_false fun hh => normalizeNewlines_ne_empty hAu (string_length_eq_zero_iff.mp hh)
    have e4 : (r.Normalize.SourceType.length = 0) = True :=
      eq_true (string_length_eq_zero_iff.mpr (normalizeNewlines_eq_empty_iff.mpr hST))
    unfold HashIntent canonicalIntentPreimage
    simp only [e1, e2, hnorm, e3, e4, if_true, if_false]
  · intro hAu hST hP
    have e3 : (r.Normalize.Author.length = 0) = False :=
      eq_false fun hh => normalizeNewlines_ne_empty hAu (string_length_eq_zero_iff.mp hh)
    have e4 : (r.Normalize.SourceType.length = 0) = False :=
      eq_false fun hh => normalizeNewlines_ne_empty hST (string_length_eq_zero_iff.mp hh)
    have e5 : (r.Normalize.Prompt.length = 0) = True :=
      eq_true (string_length_eq_zero_iff.mpr (normalizeNewlines_eq_empty_iff.mpr hP))
    unfold HashIntent canonicalIntentPreimage
    simp only [e1, e2, hnorm, e3, e4, e5, if_true, if_false]
  · intro hAu hST hP hR
    have e3 : (r.Normalize.Author.length = 0) = False :=
      eq_false fun hh => normalizeNewlines_ne_empty hAu (string_length_eq_zero_iff.mp hh)
    have e4 : (r.Normalize.SourceType.length = 0) = False :=
      eq_false fun hh => normalizeNewlines_ne_empty hST (string_length_eq_zero_iff.mp hh)
    have e5 : (r.Normalize.Prompt.length = 0) = False :=
      eq_false fun hh => normalizeNewlines_ne_empty hP (string_length_eq_zero_iff.mp hh)
    have e6 : (r.Normalize.Response.length = 0) = True :=
      eq_true (string_length_eq_zero_iff.mpr (normalizeNewlines_eq_empty_iff.mpr hR))
    unfold HashIntent canonicalIntentPreimage
    simp only [e1, e2, hnorm, e3, e4, e5, e6, if_true, if_false]

/-- C6 witness: six concrete records, each missing exactly one
mandatory field, each yielding the field-specific error. -/
theorem hashIntent_missing_field_errors_witness :
    HashIntent ⟨"", "2026-02-09T10:00:00Z", "a", "cli", "", "p", "r", "", "", ""⟩ =
      .error "id is required for hashing" ∧
    HashIntent ⟨"x", "", "a", "cli", "", "p", "r", "", "", ""⟩ =
      .error "created_at is required for hashing" ∧
    HashIntent ⟨"x", "2026-02-09T10:00:00Z", "", "cli", "", "p", "r", "", "", ""⟩ =
      .error "author is required for hashing" ∧
    HashIntent ⟨"x", "2026-02-09T10:00:00Z", "a", "", "", "p", "r", "", "", ""⟩ =
      .error "source_type is required for hashing" ∧
    HashIntent ⟨"x", "2026-02-09T10:00:00Z", "a", "cli", "", "", "r", "", "", ""⟩ =
      .error "prompt is required for hashing" ∧
    HashIntent ⟨"x", "2026-02-09T10:00:00Z", "a", "cli", "", "p", "", "", "", ""⟩ =
      .error "response is required for hashing" :=
  ⟨(hashIntent_missing_field_errors _).1 rfl,
   (hashIntent_missing_field_errors _).2.1 (by decide) rfl,
   (hashIntent_missing_field_errors _).2.2.1 (by decide) ⟨1770631200000000000, by decide⟩ rfl,
   (hashIntent_missing_field_errors _).2.2.2.1 (by decide) ⟨1770631200000000000, by decide⟩ (by decide) rfl,
   (hashIntent_missing_field_errors _).2.2.2.2.1 (by decide) ⟨1770631200000000000, by decide⟩ (by decide)
     (by decide) rfl,
   (hashIntent_missing_field_errors _).2.2.2.2.2 (by decide) ⟨1770631200000000000, by decide⟩ (by decide)
     (by decide) (by decide) rfl⟩

/-! ## C7 -/

/-- C7: two records identical except for createdAt strings that parse
to the same instant (different UTC offsets or trailing-zero sub-second
precision included) hash identically, because createdAt is re-parsed
and re-formatted to the fixed UTC nanosecond-precision form; a record
whose createdAt does not parse fails with the timestamp error.
`parseRFC3339` models the full accepted language of
`time.Parse(time.RFC3339Nano, ·)`: the strict fast path plus the
generic layout-parser fallback (comma fractional separator, one-digit
hour, offset bounds 24/60 inclusive). -/
theorem hashIntent_timestamp_normalization :
    (∀ (r : IntentRecord) (c2 : String) (t : Int),
      parseRFC3339 r.CreatedAt = some t → parseRFC3339 c2 = some t →
      HashIntent { r with CreatedAt := c2 } = HashIntent r) ∧
    (∀ r : IntentRecord, r.ID ≠ "" → r.CreatedAt ≠ "" → parseRFC3339 r.CreatedAt = none →
      HashIntent r = .error "created_at must be RFC3339") := by
  constructor
  · intro r c2 t ht1 ht2
    have hCA1 : r.CreatedAt ≠ "" := parse_some_ne_empty ht1
    have hCA2 : c2 ≠ "" := parse_some_ne_empty ht2
    have e2a : (({ r with CreatedAt := c2 } : IntentRecord).Normalize.CreatedAt.length = 0)
        = False := eq_false fun hh => hCA2 (string_length_eq_zero_iff.mp hh)
    have e2b : (r.Normalize.CreatedAt.length = 0) = False :=
      eq_false fun hh => hCA1 (string_length_eq_zero_iff.mp hh)
    have hnorm1 : normalizeRFC3339 ({ r with CreatedAt := c2 } : IntentRecord).Normalize.CreatedAt
        = .ok (formatRFC3339Nano t) := by
      unfold normalizeRFC3339
      rw [show ({ r with CreatedAt := c2 } : IntentRecord).Normalize.CreatedAt = c2 from rfl, ht2]
    have hnorm2 : normalizeRFC3339 r.Normalize.CreatedAt = .ok (formatRFC3339Nano t) := by
      unfold normalizeRFC3339
      rw [show r.Normalize.CreatedAt = r.CreatedAt from rfl, ht1]
    unfold HashIntent canonicalIntentPreimage
    simp only [e2a, e2b, hnorm1, hnorm2, if_false]
    rfl
  · intro r hID hCA hnone
    have e1 : (r.Normalize.ID.length = 0) = False :=
      eq_false fun hh => hID (string_length_eq_zero_iff.mp hh)
    have e2 : (r.Normalize.CreatedAt.length = 0) = False :=
      eq_false fun hh => hCA (string_length_eq_zero_iff.mp hh)
    have hnorm : normalizeRFC3339 r.Normalize.CreatedAt = .error "parsing time failed" := by
      unfold normalizeRFC3339
      rw [show r.Normalize.CreatedAt = r.CreatedAt from rfl, hnone]
    unfold HashIntent canonicalIntentPreimage
    simp only [e1, e2, hnorm, if_false]

/-- C7 witness: `2026-02-09T10:00:00Z`, `2026-02-09T12:00:00+02:00` and
`2026-02-09T10:00:00.000Z` denote one instant and hash identically;
the generic-fallback forms `2026-02-09T10:00:00,5Z` (comma fractional
separator) and `2026-02-09T9:00:00Z` (one-digit hour) parse and hash
like their strict spellings; `not-a-time` fails with the timestamp
error. -/
theorem hashIntent_timestamp_normalization_witness :
    HashIntent ⟨"x", "2026-02-09T12:00:00+02:00", "a", "cli", "", "p", "r", "", "", ""⟩ =
      HashIntent ⟨"x", "2026-02-09T10:00:00Z", "a", "cli", "", "p", "r", "", "", ""⟩ ∧
    HashIntent ⟨"x", "2026-02-09T10:00:00.000Z", "a", "cli", "", "p", "r", "", "", ""⟩ =
      HashIntent ⟨"x", "2026-02-09T10:00:00Z", "a", "cli", "", "p", "r", "", "", ""⟩ ∧
    HashIntent ⟨"x", "2026-02-09T10:00:00,5Z", "a", "cli", "", "p", "r", "", "", ""⟩ =
      HashIntent ⟨"x", "2026-02-09T10:00:00.5Z", "a", "cli", "", "p", "r", "", "", ""⟩ ∧
    HashIntent ⟨"x", "2026-02-09T9:00:00Z", "a", "cli", "", "p", "r", "", "", ""⟩ =
      HashIntent ⟨"x", "2026-02-09T09:00:00Z", "a", "cli", "", "p", "r", "", "", ""⟩ ∧
    HashIntent ⟨"x", "not-a-time", "a", "cli", "", "p", "r", "", "", ""⟩ =
      .error "created_at must be RFC3339" :=
  ⟨hashIntent_timestamp_normalization.1
      ⟨"x", "2026-02-09T10:00:00Z", "a", "cli", "", "p", "r", "", "", ""⟩
      "2026-02-09T12:00:00+02:00" 1770631200000000000 (by decide) (by decide),
   hashIntent_timestamp_normalization.1
      ⟨"x", "2026-02-09T10:00:00Z", "a", "cli", "", "p", "r", "", "", ""⟩
      "2026-02-09T10:00:00.000Z" 1770631200000000000 (by decide) (by decide),
   hashIntent_timestamp_normalization.1
      ⟨"x", "2026-02-09T10:00:00.5Z", "a", "cli", "", "p", "r", "", "", ""⟩
      "2026-02-09T10:00:00,5Z" 1770631200500000000 (by decide) (by decide),
   hashIntent_timestamp_normalization.1
      ⟨"x", "2026-02-09T09:00:00Z", "a", "cli", "", "p", "r", "", "", ""⟩
      "2026-02-09T9:00:00Z" 1770627600000000000 (by decide) (by decide),
   hashIntent_timestamp_normalization.2
      ⟨"x", "not-a-time", "a", "cli", "", "p", "r", "", "", ""⟩
      (by decide) (by decide) (by decide)⟩

/-! ## C9 -/

/-- C9: `List(limit)` returns rows sorted by createdAt descending, at
most `limit` of them, and a non-positive limit behaves as 100. -/
theorem listIntents_order_and_limit (rows : List IntentRecord) (limit : Int) :
    List.Sorted createdDesc (ListIntents rows limit) ∧
    (ListIntents rows limit).length ≤ (if limit ≤ 0 then (100 : Int) else limit).toNat ∧
    (limit ≤ 0 → ListIntents rows limit = ListIntents rows 100) := by
  refine ⟨?_, ?_, ?_⟩
  · unfold ListIntents
    haveI htot : IsTotal IntentRecord createdDesc :=
      ⟨fun a b => charListLe_total b.CreatedAt.data a.CreatedAt.data⟩
    haveI htr : IsTrans IntentRecord createdDesc :=
      ⟨fun a b c h1 h2 => charListLe_trans _ _ _ h2 h1⟩
    exact List.Pairwise.sublist (List.take_sublist _ _)
      (List.sorted_insertionSort createdDesc rows)
  · unfold ListIntents
    exact List.length_take_le _ _
  · intro h
    unfold ListIntents
    rw [if_pos h, if_neg (by norm_num)]

/-- C9 witness: two concrete stored rows listed with a non-positive
limit come back sorted, bounded, and as with the 100 default. -/
theorem listIntents_order_and_limit_witness :
    List.Sorted createdDesc
      (ListIntents [⟨"a", "2026-01-01T00:00:00Z", "a", "cli", "", "p", "r", "", "", "h1"⟩,
        ⟨"b", "2026-02-09T10:00:00Z", "a", "cli", "", "p", "r", "", "", "h2"⟩] 0) ∧
    (ListIntents [⟨"a", "2026-01-01T00:00:00Z", "a", "cli", "", "p", "r", "", "", "h1"⟩,
        ⟨"b", "2026-02-09T10:00:00Z", "a", "cli", "", "p", "r", "", "", "h2"⟩] 0).length ≤
      (100 : Int).toNat ∧
    ListIntents [⟨"a", "2026-01-01T00:00:00Z", "a", "cli", "", "p", "r", "", "", "h1"⟩,
        ⟨"b", "2026-02-09T10:00:00Z", "a", "cli", "", "p", "r", "", "", "h2"⟩] 0 =
      ListIntents [⟨"a", "2026-01-01T00:00:00Z", "a", "cli", "", "p", "r", "", "", "h1"⟩,
        ⟨"b", "2026-02-09T10:00:00Z", "a", "cli", "", "p", "r", "", "", "h2"⟩] 100 :=
  ⟨(listIntents_order_and_limit _ 0).1,
   (listIntents_order_and_limit _ 0).2.1,
   (listIntents_order_and_limit _ 0).2.2 (by decide)⟩

/-! ## C8 -/

/-- C8 counterexample: a call whose record carries non-empty metadata
that fails to decode (`\x7b"env":` is malformed JSON) nevertheless
succeeds and returns the full input when the filter set is empty,
because the empty-filter fast path returns before touching any meta. -/
theorem filterIntents_empty_filters_counterexample :
    unmarshalStringMap "\x7b\"env\":" = .error "invalid JSON" ∧
    FilterIntentsByMeta
        [⟨"i", "2026-02-09T10:00:00Z", "a", "cli", "", "p", "r", "\x7b\"env\":", "", "h1"⟩] [] =
      .ok [⟨"i", "2026-02-09T10:00:00Z", "a", "cli", "", "p", "r", "\x7b\"env\":", "", "h1"⟩] :=
  ⟨by decide, rfl⟩

theorem matchesMetaFilters_error_of_bad {raw : String} {e : String}
    (filters : List (String × String)) (hfe : filters.isEmpty = false)
    (hM : raw ≠ "") (he : unmarshalStringMap raw = .error e) :
    matchesMetaFilters raw filters = .error ("decode meta: " ++ e) := by
  have hl : (raw.length = 0) = False :=
    eq_false fun hh => hM (string_length_eq_zero_iff.mp hh)
  unfold matchesMetaFilters
  simp only [hfe, hl, he, Bool.false_eq_true, if_false]

theorem filterIntentsGo_error (filters : List (String × String))
    (hfe : filters.isEmpty = false) :
    ∀ intents : List IntentRecord,
      (∃ r ∈ intents, r.Meta ≠ "" ∧ ∃ e, unmarshalStringMap r.Meta = .error e) →
      ∃ e, filterIntentsGo filters intents = .error e := by
  intro intents hex
  induction intents with
  | nil => simp at hex
  | cons r rest ih =>
    cases hm : matchesMetaFilters r.Meta filters with
    | error e0 =>
      refine ⟨e0, ?_⟩
      unfold filterIntentsGo
      rw [hm]
    | ok b =>
      obtain ⟨rr, hmem, hM, e, he⟩ := hex
      rcases List.mem_cons.mp hmem with hhead | htail
      · subst hhead
        rw [matchesMetaFilters_error_of_bad filters hfe hM he] at hm
        cases hm
      · obtain ⟨e', he'⟩ := ih ⟨rr, htail, hM, e, he⟩
        cases b with
        | true =>
          refine ⟨e', ?_⟩
          unfold filterIntentsGo
          rw [hm, he']
        | false =>
          refine ⟨e', ?_⟩
          unfold filterIntentsGo
          rw [hm, he']

/-- C8 amended: for every call with a NON-EMPTY filter set, a record
whose non-empty metadata fails to decode as a JSON object makes the
whole call fail with a decode error — no partial success; with an
empty filter set the call returns the input without decoding any
metadata (see the counterexample). -/
theorem filterIntents_decode_failure_fails_call
    (intents : List IntentRecord) (filters : List (String × String))
    (hf : filters ≠ [])
    (hex : ∃ r ∈ intents, r.Meta ≠ "" ∧ ∃ e, unmarshalStringMap r.Meta = .error e) :
    ∃ e, FilterIntentsByMeta intents filters = .error e := by
  have hfe : filters.isEmpty = false := by
    cases filters with
    | nil => exact absurd rfl hf
    | cons f fs => rfl
  obtain ⟨e', he'⟩ := filterIntentsGo_error filters hfe intents hex
  refine ⟨e', ?_⟩
  unfold FilterIntentsByMeta
  simp only [hfe, Bool.false_eq_true, if_false]
  exact he'

/-- C8 witness: with the non-empty filter set `env=prod`, the single
record with malformed metadata makes the call fail. -/
theorem filterIntents_decode_failure_fails_call_witness :
    ∃ e, FilterIntentsByMeta
        [⟨"i", "2026-02-09T10:00:00Z", "a", "cli", "", "p", "r", "\x7b\"env\":", "", "h1"⟩]
        [("env", "prod")] = .error e :=
  filterIntents_decode_failure_fails_call _ _ (by decide)
    ⟨⟨"i", "2026-02-09T10:00:00Z", "a", "cli", "", "p", "r", "\x7b\"env\":", "", "h1"⟩,
     List.mem_singleton.mpr rfl, by decide, "invalid JSON", by decide⟩

/-! ## C2: association-list lemmas for the canonical object writer -/

theorem containsKey_iff {α : Type} (k : String) : ∀ l : List (String × α),
    containsKey k l = true ↔ k ∈ l.map Prod.fst
  | [] => by simp [containsKey]
  | p :: rest => by
    simp only [containsKey, List.map_cons, List.mem_cons, Bool.or_eq_true, beq_iff_eq,
      containsKey_iff k rest]
    exact or_congr eq_comm Iff.rfl

theorem foldl_insKey_of_nodup {α : Type} :
    ∀ (l acc : List (String × α)), (((acc ++ l).map Prod.fst).Nodup) →
      List.foldl insKey acc l = acc ++ l
  | [], acc => fun _ => by simp
  | p :: rest, acc => fun hn => by
    have hnotin : p.1 ∉ acc.map Prod.fst := by
      simp only [List.map_append, List.nodup_append] at hn
      intro hmem
      exact hn.2.2 hmem (by simp)
    have hck : containsKey p.1 acc = false := by
      cases hc : containsKey p.1 acc with
      | false => rfl
      | true => exact absurd ((containsKey_iff p.1 acc).mp hc) hnotin
    have step : insKey acc p = acc ++ [p] := by
      unfold insKey
      rw [hck]
      simp
    simp only [List.foldl, step]
    rw [foldl_insKey_of_nodup rest (acc ++ [p]) (by simpa using hn)]
    simp

theorem mapOf_eq_self {α : Type} (l : List (String × α))
    (hn : (l.map Prod.fst).Nodup) : mapOf l = l := by
  unfold mapOf
  simpa using foldl_insKey_of_nodup l [] (by simpa using hn)

theorem lookupFirst_eq_none_iff {α : Type} (k : String) : ∀ l : List (String × α),
    lookupFirst k l = none ↔ k ∉ l.map Prod.fst
  | [] => by simp [lookupFirst]
  | p :: rest => by
    by_cases h : p.1 = k
    · simp [lookupFirst, h]
    · have hb : (p.1 == k) = false := by simp [h]
      simp [lookupFirst, hb, lookupFirst_eq_none_iff k rest, h, Ne.symm h]

theorem lookupFirst_isSome_iff {α : Type} (k : String) (l : List (String × α)) :
    (lookupFirst k l).isSome = true ↔ k ∈ l.map Prod.fst := by
  cases hc : lookupFirst k l with
  | none => simpa using (lookupFirst_eq_none_iff k l).mp hc
  | some v =>
    simp only [Option.isSome_some, true_iff]
    by_contra hmem
    rw [(lookupFirst_eq_none_iff k l).mpr hmem] at hc
    cases hc

theorem lookupFirst_perm {α : Type} {l l' : List (String × α)}
    (hp : List.Perm l l') (hn : (l.map Prod.fst).Nodup) (k : String) :
    lookupFirst k l = lookupFirst k l' := by
  induction hp with
  | nil => rfl
  | cons x _ ih =>
    simp only [List.map_cons, List.nodup_cons] at hn
    simp only [lookupFirst]
    rw [ih hn.2]
  | swap x y l =>
    simp only [List.map_cons, List.nodup_cons, List.mem_cons] at hn
    have hxy : y.1 ≠ x.1 := fun e => hn.1 (Or.inl e)
    simp only [lookupFirst]
    by_cases hx : x.1 = k <;> by_cases hy : y.1 = k
    · exact absurd (hy.trans hx.symm) hxy
    · simp [hx, hy]
    · simp [hx, hy]
    · simp [hx, hy]
  | trans h1 h2 ih1 ih2 =>
    rw [ih1 hn, ih2 ((h1.map Prod.fst).nodup_iff.mp hn)]

theorem lookupFirst_head_not_in_tail {α : Type} {p : String × α} {l : List (String × α)}
    (h : p.1 ∉ l.map Prod.fst) : lookupFirst p.1 l = none :=
  (lookupFirst_eq_none_iff p.1 l).mpr h

theorem strict_sorted_ext {α : Type} : ∀ l1 l2 : List (String × α),
    List.Pairwise keyLt l1 → List.Pairwise keyLt l2 →
    (∀ k, lookupFirst k l1 = lookupFirst k l2) → l1 = l2
  | [], [], _, _, _ => rfl
  | [], q :: l2, _, _, hl => by
    have := hl q.1
    simp [lookupFirst] at this
  | p :: l1, [], _, _, hl => by
    have := hl p.1
    simp [lookupFirst] at this
  | p :: l1, q :: l2, hs1, hs2, hl => by
    have hs1' := List.pairwise_cons.mp hs1
    have hs2' := List.pairwise_cons.mp hs2
    have hpq : p.1 = q.1 := by
      by_contra hne
      have h1 : lookupFirst p.1 (q :: l2) = some p.2 := by
        rw [← hl p.1]; simp [lookupFirst]
      have h2 : lookupFirst q.1 (p :: l1) = some q.2 := by
        rw [hl q.1]; simp [lookupFirst]
      have hbqp : (q.1 == p.1) = false := by
        simp only [beq_eq_false_iff_ne, ne_eq]
        exact fun e => hne e.symm
      have hbpq : (p.1 == q.1) = false := by
        simp only [beq_eq_false_iff_ne, ne_eq]
        exact hne
      rw [show lookupFirst p.1 (q :: l2) = lookupFirst p.1 l2 from by
        simp [lookupFirst, hbqp]] at h1
      rw [show lookupFirst q.1 (p :: l1) = lookupFirst q.1 l1 from by
        simp [lookupFirst, hbpq]] at h2
      have hp_in : p.1 ∈ l2.map Prod.fst := by
        by_contra hmem
        rw [(lookupFirst_eq_none_iff _ _).mpr hmem] at h1
        cases h1
      have hq_in : q.1 ∈ l1.map Prod.fst := by
        by_contra hmem
        rw [(lookupFirst_eq_none_iff _ _).mpr hmem] at h2
        cases h2
      obtain ⟨pp, hpp, hppfst⟩ := List.mem_map.mp hp_in
      obtain ⟨qq, hqq, hqqfst⟩ := List.mem_map.mp hq_in
      have hlt1 : keyLt q pp := hs2'.1 pp hpp
      have hlt2 : keyLt p qq := hs1'.1 qq hqq
      have hle1 : strLe q.1 p.1 = true := by
        have := hlt1.1
        unfold keyLe at this
        rwa [hppfst] at this
      have hle2 : strLe p.1 q.1 = true := by
        have := hlt2.1
        unfold keyLe at this
        rwa [hqqfst] at this
      exact hne (strLe_antisymm hle2 hle1)
    have hval : p.2 = q.2 := by
      have h1 := hl p.1
      have hb1 : (p.1 == p.1) = true := by simp
      have hb2 : (q.1 == p.1) = true := by simp [hpq]
      simp only [lookupFirst, hb1, hb2, if_true] at h1
      exact Option.some.inj h1
    have hpq' : p = q := by
      obtain ⟨p1, p2⟩ := p
      obtain ⟨q1, q2⟩ := q
      simp only at hpq hval
      rw [hpq, hval]
    have htail : ∀ k, lookupFirst k l1 = lookupFirst k l2 := by
      intro k
      by_cases hk : k = p.1
      · have hn1 : p.1 ∉ l1.map Prod.fst := by
          intro hmem
          obtain ⟨x, hx, hxfst⟩ := List.mem_map.mp hmem
          exact (hs1'.1 x hx).2 hxfst.symm
        have hn2 : p.1 ∉ l2.map Prod.fst := by
          intro hmem
          obtain ⟨x, hx, hxfst⟩ := List.mem_map.mp hmem
          refine (hs2'.1 x hx).2 ?_
          rw [← hpq]
          exact hxfst.symm
        rw [hk, (lookupFirst_eq_none_iff _ _).mpr hn1, (lookupFirst_eq_none_iff _ _).mpr hn2]
      · have h1 := hl k
        have hb1 : (p.1 == k) = false := by
          simp only [beq_eq_false_iff_ne, ne_eq]
          exact fun e => hk e.symm
        have hb2 : (q.1 == k) = false := by
          simp only [beq_eq_false_iff_ne, ne_eq]
          exact fun e => hk (hpq ▸ e.symm)
        simpa only [lookupFirst, hb1, hb2, if_false] using h1
    rw [hpq', strict_sorted_ext l1 l2 hs1'.2 hs2'.2 htail]

theorem sorted_strict_of_nodup {α : Type} (l : List (String × α))
    (hs : List.Sorted keyLe l) (hn : (l.map Prod.fst).Nodup) : List.Pairwise keyLt l := by
  have hne : List.Pairwise (fun p q : String × α => p.1 ≠ q.1) l := List.pairwise_map.mp hn
  exact (hs.and hne).imp fun h => ⟨h.1, h.2⟩

theorem sortPairs_sorted {α : Type} (l : List (String × α)) :
    List.Sorted keyLe (sortPairs l) := by
  haveI : IsTotal (String × α) keyLe := ⟨fun p q => charListLe_total p.1.data q.1.data⟩
  haveI : IsTrans (String × α) keyLe := ⟨fun a b c h1 h2 => charListLe_trans _ _ _ h1 h2⟩
  exact List.sorted_insertionSort keyLe l

theorem sortPairs_perm {α : Type} (l : List (String × α)) :
    List.Perm (sortPairs l) l :=
  List.perm_insertionSort keyLe l

/-- The object renderer is determined by the (duplicate-free) key-value
lookup function of the rendered members: the member order of the input
is invisible in the output. -/
theorem renderObject_eq_of_lookup (F G : List (String × String))
    (hF : (F.map Prod.fst).Nodup) (hG : (G.map Prod.fst).Nodup)
    (hlen : F.length = G.length)
    (hsub : ∀ k v, lookupFirst k F = some v → lookupFirst k G = some v) :
    renderObject F = renderObject G := by
  have hsubkeys : F.map Prod.fst ⊆ G.map Prod.fst := by
    intro k hk
    obtain ⟨v, hv⟩ := Option.isSome_iff_exists.mp ((lookupFirst_isSome_iff k F).mpr hk)
    exact (lookupFirst_isSome_iff k G).mp (by rw [hsub k v hv]; rfl)
  have hkeysperm : List.Perm (F.map Prod.fst) (G.map Prod.fst) :=
    (List.subperm_of_subset hF hsubkeys).perm_of_length_le (by simp [hlen])
  have hlook : ∀ k, lookupFirst k F = lookupFirst k G := by
    intro k
    cases hc : lookupFirst k F with
    | some v => exact (hsub k v hc).symm
    | none =>
      have hmem : k ∉ F.map Prod.fst := (lookupFirst_eq_none_iff k F).mp hc
      have hmem' : k ∉ G.map Prod.fst := fun hm => hmem (hkeysperm.mem_iff.mpr hm)
      exact ((lookupFirst_eq_none_iff k G).mpr hmem').symm
  unfold renderObject
  rw [mapOf_eq_self F hF, mapOf_eq_self G hG]
  suffices h : sortPairs F = sortPairs G by rw [h]
  have hnF : ((sortPairs F).map Prod.fst).Nodup :=
    ((sortPairs_perm F).map Prod.fst).nodup_iff.mpr hF
  have hnG : ((sortPairs G).map Prod.fst).Nodup :=
    ((sortPairs_perm G).map Prod.fst).nodup_iff.mpr hG
  refine strict_sorted_ext _ _
    (sorted_strict_of_nodup _ (sortPairs_sorted F) hnF)
    (sorted_strict_of_nodup _ (sortPairs_sorted G) hnG) ?_
  intro k
  rw [lookupFirst_perm (sortPairs_perm F) hnF k, lookupFirst_perm (sortPairs_perm G) hnG k]
  exact hlook k

/-! ## C2: bridges between the writer and the field structure -/

theorem writeJSONFields_map_fst : ∀ fs : JsonFields,
    (writeJSONFields fs).map Prod.fst = fieldKeys fs
  | .nil => rfl
  | .cons k v fs => by
    simp only [writeJSONFields, fieldKeys, List.map_cons]
    rw [writeJSONFields_map_fst fs]

theorem writeJSONFields_length : ∀ fs : JsonFields,
    (writeJSONFields fs).length = lengthF fs
  | .nil => rfl
  | .cons k v fs => by
    simp only [writeJSONFields, lengthF, List.length_cons]
    rw [writeJSONFields_length fs]

theorem lookupFirst_writeJSONFields (k : String) : ∀ fs : JsonFields,
    lookupFirst k (writeJSONFields fs) = Option.map writeJSONValue (lookupFieldJ k fs)
  | .nil => rfl
  | .cons k' v fs => by
    simp only [writeJSONFields, lookupFirst, lookupFieldJ]
    by_cases h : k' = k
    · simp [h]
    · have hb : (k' == k) = false := by simp [h]
      simp only [hb, if_false]
      exact lookupFirst_writeJSONFields k fs

theorem containsKeyF_iff (k : String) : ∀ fs : JsonFields,
    containsKeyF k fs = true ↔ k ∈ fieldKeys fs
  | .nil => by simp [containsKeyF, fieldKeys]
  | .cons k' v fs => by
    simp only [containsKeyF, fieldKeys, List.mem_cons, Bool.or_eq_true, beq_iff_eq,
      containsKeyF_iff k fs]
    exact or_congr eq_comm Iff.rfl

theorem nodupKeysB_iff : ∀ fs : JsonFields,
    nodupKeysB fs = true ↔ (fieldKeys fs).Nodup
  | .nil => by simp [nodupKeysB, fieldKeys]
  | .cons k v fs => by
    simp only [nodupKeysB, fieldKeys, List.nodup_cons, Bool.and_eq_true, Bool.not_eq_true',
      nodupKeysB_iff fs]
    constructor
    · rintro ⟨h1, h2⟩
      refine ⟨fun hm => ?_, h2⟩
      rw [(containsKeyF_iff k fs).mpr hm] at h1
      cases h1
    · rintro ⟨h1, h2⟩
      refine ⟨?_, h2⟩
      cases hc : containsKeyF k fs with
      | false => rfl
      | true => exact absurd ((containsKeyF_iff k fs).mp hc) h1

theorem keySubB_lookup : ∀ fs gs : JsonFields, keySubB fs gs = true →
    ∀ k v, lookupFieldJ k fs = some v →
      ∃ w, lookupFieldJ k gs = some w ∧ keyPermB v w = true
  | .nil, _, _ => fun k v hv => by cases hv
  | .cons k0 v0 fs', gs, hsub => by
    intro k v hv
    rw [show keySubB (.cons k0 v0 fs') gs =
        ((match lookupFieldJ k0 gs with
          | some w => keyPermB v0 w
          | none => false) && keySubB fs' gs) from rfl] at hsub
    rw [Bool.and_eq_true] at hsub
    simp only [lookupFieldJ] at hv
    by_cases hk : k0 = k
    · subst hk
      simp only [beq_self_eq_true, if_true] at hv
      cases hv
      cases hl : lookupFieldJ k0 gs with
      | none => rw [hl] at hsub; cases hsub.1
      | some w =>
        rw [hl] at hsub
        exact ⟨w, rfl, hsub.1⟩
    · have hb : (k0 == k) = false := by simp [hk]
      simp only [hb, Bool.false_eq_true, if_false] at hv
      exact keySubB_lookup fs' gs hsub.2 k v hv

theorem lookupFieldJ_sizeOf {k : String} : ∀ {fs : JsonFields} {v : Json},
    lookupFieldJ k fs = some v → sizeOf v < sizeOf fs
  | .nil, v => fun h => by cases h
  | .cons k' v' fs', v => fun h => by
    simp only [lookupFieldJ] at h
    by_cases hk : k' = k
    · have hb : (k' == k) = true := by simp [hk]
      rw [hb] at h
      simp only [if_true] at h
      cases h
      simp only [JsonFields.cons.sizeOf_spec]
      omega
    · have hb : (k' == k) = false := by simp [hk]
      simp only [hb, Bool.false_eq_true, if_false] at h
      have := lookupFieldJ_sizeOf h
      simp only [JsonFields.cons.sizeOf_spec]
      omega

/-- Bounded mutual induction: `keyPermB`-related values (and element
lists) render identically. -/
theorem keyPerm_write_bound : ∀ n : Nat,
    (∀ v w : Json, sizeOf v ≤ n → keyPermB v w = true →
      writeJSONValue v = writeJSONValue w) ∧
    (∀ xs ys : JsonList, sizeOf xs ≤ n → keyPermListB xs ys = true →
      writeJSONList xs = writeJSONList ys) := by
  intro n
  induction n with
  | zero =>
    constructor
    · intro v w hs _
      exact absurd hs (by cases v <;> simp)
    · intro xs ys hs _
      exact absurd hs (by cases xs <;> simp)
  | succ n ih =>
    obtain ⟨ih1, ih2⟩ := ih
    constructor
    · intro v w hs hperm
      cases v <;> cases w <;>
        simp only [keyPermB, beq_iff_eq, Bool.and_eq_true, Bool.false_eq_true] at hperm
      · rfl
      · rw [hperm]
      · rw [hperm]
      · rw [hperm]
      · rename_i xs ys
        have hsz : sizeOf xs ≤ n := by
          simp only [Json.arr.sizeOf_spec] at hs
          omega
        simp only [writeJSONValue]
        rw [ih2 xs ys hsz hperm]
      · rename_i fs gs
        obtain ⟨⟨⟨hnf, hng⟩, hlen⟩, hsub⟩ := hperm
        have hszf : sizeOf fs ≤ n := by
          simp only [Json.obj.sizeOf_spec] at hs
          omega
        simp only [writeJSONValue]
        apply renderObject_eq_of_lookup
        · rw [writeJSONFields_map_fst]
          exact (nodupKeysB_iff fs).mp hnf
        · rw [writeJSONFields_map_fst]
          exact (nodupKeysB_iff gs).mp hng
        · rw [writeJSONFields_length, writeJSONFields_length]
          exact hlen
        · intro k v' hv'
          rw [lookupFirst_writeJSONFields] at hv' ⊢
          cases hlook : lookupFieldJ k fs with
          | none => rw [hlook] at hv'; cases hv'
          | some v0 =>
            rw [hlook] at hv'
            obtain ⟨w0, hw0, hperm0⟩ := keySubB_lookup fs gs hsub k v0 hlook
            rw [hw0]
            simp only [Option.map_some'] at hv' ⊢
            have hsz0 : sizeOf v0 ≤ n := le_of_lt (lt_of_lt_of_le (lookupFieldJ_sizeOf hlook) hszf)
            have hw := ih1 v0 w0 hsz0 hperm0
            rw [← hw]
            exact hv'
    · intro xs ys hs hperm
      cases xs <;> cases ys <;>
        simp only [keyPermListB, Bool.and_eq_true, Bool.false_eq_true] at hperm
      · rfl
      · rename_i x xs' y ys'
        obtain ⟨hp1, hp2⟩ := hperm
        have hsz1 : sizeOf x ≤ n := by
          simp only [JsonList.cons.sizeOf_spec] at hs
          omega
        have hsz2 : sizeOf xs' ≤ n := by
          simp only [JsonList.cons.sizeOf_spec] at hs
          omega
        simp only [writeJSONList]
        rw [ih1 x y hsz1 hp1, ih2 xs' ys' hsz2 hp2]

/-- `keyPermB`-related values have identical canonical text. -/
theorem keyPermB_write {v w : Json} (h : keyPermB v w = true) :
    writeJSONValue v = writeJSONValue w :=
  (keyPerm_write_bound (sizeOf v)).1 v w le_rfl h

theorem decodeJSON_ok_ne_empty {raw : String} {v : Json}
    (h : decodeJSON raw = .ok v) : raw ≠ "" := fun e => by
  subst e
  rw [show decodeJSON "" = .error "invalid JSON" from rfl] at h
  cases h

theorem canonicalizeMeta_of_decode_obj {raw : String} {fs : JsonFields}
    (h : decodeJSON raw = .ok (.obj fs)) :
    CanonicalizeMeta raw = .ok (writeJSONValue (.obj fs)) := by
  have hne := decodeJSON_ok_ne_empty h
  have hlen : (raw.length = 0) = False :=
    eq_false fun hh => hne (string_length_eq_zero_iff.mp hh)
  unfold CanonicalizeMeta
  simp only [hlen, if_false, h]

/-! ## C2 -/

/-- C2: the canonical writer emits object keys in ascending
lexicographic byte order, and its output is invariant under recursively
permuting the (distinct) keys of the decoded metadata object — two raw
metadata texts that decode to key-permutations of one another
canonicalize to identical bytes, and two records differing only in such
metadata key order receive equal hashes. -/
theorem canonicalizeMeta_key_permutation :
    (∀ ps : List (String × String),
      List.Pairwise (fun a b : String => strLe a b = true)
        ((sortPairs (mapOf ps)).map Prod.fst)) ∧
    (∀ (raw1 raw2 : String) (fs gs : JsonFields),
      decodeJSON raw1 = .ok (.obj fs) → decodeJSON raw2 = .ok (.obj gs) →
      keyPermB (.obj fs) (.obj gs) = true →
      CanonicalizeMeta raw1 = .ok (writeJSONValue (.obj fs)) ∧
      CanonicalizeMeta raw2 = CanonicalizeMeta raw1) ∧
    (∀ (r : IntentRecord) (raw2 : String) (fs gs : JsonFields),
      decodeJSON r.Meta = .ok (.obj fs) → decodeJSON raw2 = .ok (.obj gs) →
      keyPermB (.obj fs) (.obj gs) = true →
      HashIntent { r with Meta := raw2 } = HashIntent r) := by
  refine ⟨?_, ?_, ?_⟩
  · intro ps
    exact List.pairwise_map.mpr ((sortPairs_sorted (mapOf ps)).imp fun h => h)
  · intro raw1 raw2 fs gs h1 h2 hperm
    refine ⟨canonicalizeMeta_of_decode_obj h1, ?_⟩
    rw [canonicalizeMeta_of_decode_obj h1, canonicalizeMeta_of_decode_obj h2,
      keyPermB_write hperm]
  · intro r raw2 fs gs h1 h2 hperm
    have hm1 : r.Meta ≠ "" := decodeJSON_ok_ne_empty h1
    have hm2 : raw2 ≠ "" := decodeJSON_ok_ne_empty h2
    have hc1' : CanonicalizeMeta r.Normalize.Meta = .ok (writeJSONValue (.obj fs)) :=
      canonicalizeMeta_of_decode_obj h1
    have hc2' : CanonicalizeMeta ({ r with Meta := raw2 } : IntentRecord).Normalize.Meta
        = .ok (writeJSONValue (.obj fs)) := by
      have := canonicalizeMeta_of_decode_obj h2
      rw [show ({ r with Meta := raw2 } : IntentRecord).Normalize.Meta = raw2 from rfl, this,
        keyPermB_write hperm]
    have eM1 : (r.Normalize.Meta.length > 0) = True :=
      eq_true (Nat.pos_of_ne_zero fun hh => hm1 (string_length_eq_zero_iff.mp hh))
    have eM2 : (({ r with Meta := raw2 } : IntentRecord).Normalize.Meta.length > 0) = True :=
      eq_true (Nat.pos_of_ne_zero fun hh => hm2 (string_length_eq_zero_iff.mp hh))
    unfold HashIntent canonicalIntentPreimage
    simp only [eM1, eM2, if_true, hc1', hc2']
    rfl

/-- C2 witness: the repository test's metadata pair `\x7b"b":2,"a":1\x7d`
and `\x7b"a":1,"b":2\x7d` canonicalize identically and leave the record
hash unchanged. -/
theorem canonicalizeMeta_key_permutation_witness :
    CanonicalizeMeta "\x7b\"b\":2,\"a\":1\x7d" =
      .ok (writeJSONValue (.obj (.cons "b" (.numv "2") (.cons "a" (.numv "1") .nil)))) ∧
    CanonicalizeMeta "\x7b\"a\":1,\"b\":2\x7d" = CanonicalizeMeta "\x7b\"b\":2,\"a\":1\x7d" ∧
    HashIntent ⟨"01HZYFQ7T9ZV54X2G4A8M4J2C1", "2026-02-09T10:00:00Z", "alice", "cli", "",
        "line1\nline2", "resp\nline2", "\x7b\"a\":1,\"b\":2\x7d", "", ""⟩ =
      HashIntent ⟨"01HZYFQ7T9ZV54X2G4A8M4J2C1", "2026-02-09T10:00:00Z", "alice", "cli", "",
        "line1\nline2", "resp\nline2", "\x7b\"b\":2,\"a\":1\x7d", "", ""⟩ :=
  ⟨(canonicalizeMeta_key_permutation.2.1 "\x7b\"b\":2,\"a\":1\x7d" "\x7b\"a\":1,\"b\":2\x7d"
      (.cons "b" (.numv "2") (.cons "a" (.numv "1") .nil))
      (.cons "a" (.numv "1") (.cons "b" (.numv "2") .nil))
      (by decide) (by decide) (by decide)).1,
   (canonicalizeMeta_key_permutation.2.1 "\x7b\"b\":2,\"a\":1\x7d" "\x7b\"a\":1,\"b\":2\x7d"
      (.cons "b" (.numv "2") (.cons "a" (.numv "1") .nil))
      (.cons "a" (.numv "1") (.cons "b" (.numv "2") .nil))
      (by decide) (by decide) (by decide)).2,
   canonicalizeMeta_key_permutation.2.2
      ⟨"01HZYFQ7T9ZV54X2G4A8M4J2C1", "2026-02-09T10:00:00Z", "alice", "cli", "",
        "line1\nline2", "resp\nline2", "\x7b\"b\":2,\"a\":1\x7d", "", ""⟩
      "\x7b\"a\":1,\"b\":2\x7d"
      (.cons "b" (.numv "2") (.cons "a" (.numv "1") .nil))
      (.cons "a" (.numv "1") (.cons "b" (.numv "2") .nil))
      (by decide) (by decide) (by decide)⟩

end Yanzi
